import Mathlib

/-
  Verification of the n-gram language model in `ex1.py`
  (class `Ngram_Language_Model`).

  The embedding models Python dictionaries as insertion-ordered association
  lists (`List (String × β)`), which matches CPython's dict semantics:
  iteration order is insertion order, updates keep the position of a key,
  new keys are appended at the end.  Python `float` arithmetic on
  probabilities is modeled exactly over `ℚ` (the spec blesses exact
  rational arithmetic for the numerical claims), and `math.log` is modeled
  by `Real.log`.  A Python exception is modeled as `none`.
-/

set_option maxHeartbeats 1000000

namespace Ex1

/-! ### Association lists (Python dicts) -/

/-- First-match lookup in an association list; `d[k]` returns `some` of the
value stored for `k`, `none` when `k` is absent (Python `KeyError`). -/
def dlookup {β : Type} : List (String × β) → String → Option β
  | [], _ => none
  | p :: rest, k => if p.1 = k then some p.2 else dlookup rest k

/-- Python `k in d`. -/
def dmem {β : Type} (d : List (String × β)) (k : String) : Bool :=
  (dlookup d k).isSome

/-- Python `d[k] = v` for a key already present: replace the value in place
(the entry keeps its position, as in a CPython dict). -/
def setAssoc {β : Type} : List (String × β) → String → β → List (String × β)
  | [], _, _ => []
  | p :: rest, k, v => if p.1 = k then (p.1, v) :: rest else p :: setAssoc rest k v

/-- Python `d[ngram] += 1` on a `defaultdict(int)`: increment a present
count, insert count 1 (default 0, then `+= 1`) for an absent key. -/
def incrCount (d : List (String × Nat)) (k : String) : List (String × Nat) :=
  match dlookup d k with
  | some c => setAssoc d k (c + 1)
  | none => d ++ [(k, 1)]

/-- One inner token table of `context_by_n`: token → count. -/
abbrev Inner := List (String × Nat)

/-- One level of `context_by_n`: context string → token table. -/
abbrev CtxTable := List (String × Inner)

/-- The `build_model` update of one `(context, last_gram)` observation
(`ex1.py` lines 43–49):
`if context in tbl: (if last in tbl[context]: += 1 else: = 1) else: tbl[context] = {last: 1}`. -/
def incrCtx (tbl : CtxTable) (c t : String) : CtxTable :=
  match dlookup tbl c with
  | some inner =>
    match dlookup inner t with
    | some cnt => setAssoc tbl c (setAssoc inner t (cnt + 1))
    | none => setAssoc tbl c (inner ++ [(t, 1)])
  | none => tbl ++ [(c, [(t, 1)])]

/-- Python `sum(d.values())`. -/
def sumVals (d : Inner) : Nat := (d.map (fun p => p.2)).sum

/-- Python `list(d.keys())`. -/
def keysOf {β : Type} (d : List (String × β)) : List String := d.map (fun p => p.1)

/-- Number of occurrences of a string in a list (used to specify the
count tables). -/
def countStr (k : String) : List String → Nat
  | [] => 0
  | t :: rest => (if t = k then 1 else 0) + countStr k rest

/-! ### Tokenizer

Python `str.split(' ')` and `' '.join` are modeled on `List Char` by
explicit recursion (`String` in this Lean version is a structure holding a
`List Char`, so this is the same computation). -/

/-- Python `s.split(' ')` on the character list: split at every single
occurrence of `' '`.  `"".split(' ') = ['']`, i.e. `splitChar [] = [[]]`. -/
def splitChar : List Char → List (List Char)
  | [] => [[]]
  | c :: rest =>
    if c = ' ' then [] :: splitChar rest
    else
      match splitChar rest with
      | [] => [[c]]
      | w :: ws => (c :: w) :: ws

/-- Python `' '.join` on character lists: interleave a single space. -/
def joinData : List (List Char) → List Char
  | [] => []
  | [w] => w
  | w :: v :: ws => w ++ ' ' :: joinData (v :: ws)

/-- Word-level split of a string (Python `text.split(' ')`). -/
def wsplit (s : String) : List String := (splitChar s.data).map String.mk

/-- `Ngram_Language_Model.split` (lines 119–135): character granularity
yields one token per character; word granularity returns `[]` for the
empty string, else splits on single spaces. -/
def msplit (chars : Bool) (text : String) : List String :=
  if chars then text.data.map (fun c => String.mk [c])
  else if text = "" then [] else wsplit text

/-- `Ngram_Language_Model.join` (lines 104–117): concatenation for
character granularity, single-space interleaving for words. -/
def mjoin (chars : Bool) (ts : List String) : String :=
  if chars then String.mk (ts.map String.data).flatten
  else String.mk (joinData (ts.map String.data))

/-- Python `a.startswith(b)` as a prefix test on the character lists. -/
def strStartsWith (a b : String) : Bool := b.data.isPrefixOf a.data

/-! ### The model object -/

/-- The state of an `Ngram_Language_Model` object.  `V = None` and
`context_by_n = None` before training are modeled as `0` and `[]`
(they are only read after training).  `context_by_n` is indexed by the
context length: index `k` is the Python `context_by_n[k]`. -/
structure Model where
  n : Nat
  use_chars : Bool
  model_dict : List (String × Nat)
  V : Nat
  context_by_n : List CtxTable
  contexts_prob : List ℚ
  deriving DecidableEq

/-- `Ngram_Language_Model.__init__(n, chars)` (lines 14–27).  There is no
validation code in the constructor: every `n` is accepted and stored. -/
def initModel (n : Nat) (chars : Bool) : Model :=
  { n := n, use_chars := chars, model_dict := [], V := 0,
    context_by_n := [], contexts_prob := [] }

/-! ### Training (`build_model`) -/

/-- `get_ngram_by_last_index(s, idx, n_size)` (lines 58–75): the slice
`s[max(idx - n_size + 1, 0) : idx + 1]`, joined per granularity.
(`max(idx - n_size + 1, 0)` is truncated `Nat` subtraction.) -/
def get_ngram_by_last_index (chars : Bool) (s : List String) (idx n_size : Nat) : String :=
  mjoin chars ((s.take (idx + 1)).drop (idx + 1 - n_size))

/-- `split_context_gram(ngram)` (lines 77–92): characters use string
slicing `ngram[:-1] / ngram[-1]`; words re-split on `' '` and re-join all
but the last token.  (`ngram[-1]` on an empty string raises in Python; that
is unreachable for `n ≥ 1` and modeled as `""`.) -/
def split_context_gram (chars : Bool) (ngram : String) : String × String :=
  if chars then
    (String.mk ngram.data.dropLast, String.mk (ngram.data.drop (ngram.data.length - 1)))
  else
    let ns := wsplit ngram
    (mjoin false ns.dropLast, (ns.getLast?).getD "")

/-- Python `range(len - 1, nn - 2, -1)`: the indices `len-1, len-2, …, nn-1`
in descending order (empty when `len < nn`). -/
def descRange (len nn : Nat) : List Nat :=
  (List.range (len + 1 - nn)).map (fun j => len - 1 - j)

/-- One training observation of the inner loop (lines 40–42): for window
size `nn` ending at `idx`, the computed context level
`len(split(context))`, the context string, and the final token. -/
def buildTriple (chars : Bool) (S : List String) (nn idx : Nat) : Nat × String × String :=
  let ngram := get_ngram_by_last_index chars S idx nn
  let cg := split_context_gram chars ngram
  ((msplit chars cg.1).length, cg.1, cg.2)

/-- All observations of the inner loop for one window size `nn`,
in the loop's (descending-index) order. -/
def levelTriples (chars : Bool) (S : List String) (nn : Nat) : List (Nat × String × String) :=
  (descRange S.length nn).map (buildTriple chars S nn)

/-- All observations of both loops of `build_model` (lines 38–49), in
execution order: `nn = 1, …, n`, `idx` descending. -/
def allTriples (chars : Bool) (S : List String) (n : Nat) : List (Nat × String × String) :=
  (((List.range n).map (fun j => j + 1)).map (levelTriples chars S)).flatten

/-- Apply one observation to `context_by_n`
(`self.context_by_n[len(split(context))]` is updated in place). -/
def applyTriple (ctxs : List CtxTable) (tr : Nat × String × String) : List CtxTable :=
  ctxs.set tr.1 (incrCtx ((ctxs.get? tr.1).getD []) tr.2.1 tr.2.2)

/-- The final `context_by_n` produced by `build_model`: start from
`{i: {} for i in range(n)}` and apply every observation. -/
def ctxOf (chars : Bool) (n : Nat) (S : List String) : List CtxTable :=
  (allTriples chars S n).foldl applyTriple (List.replicate n [])

/-- The n-grams recorded into `model_dict` (line 50–51: only the `nn = n`
pass), in loop (descending-index) order. -/
def ngramsOf (chars : Bool) (S : List String) (n : Nat) : List String :=
  (descRange S.length n).map (fun idx => get_ngram_by_last_index chars S idx n)

/-- `build_model(text)` (lines 29–56).  The Python loop interleaves the
`context_by_n` updates and the `model_dict` updates (the latter only in the
`nn = n` pass); the two structures are disjoint, so they are built by two
folds over the same observations in the same order.  `model_dict` is NOT
reset: the fold starts from the current `self.model_dict`.  For `n = 0`
Python raises `KeyError` at the `contexts_prob` step; the embedding is
total and faithful for `n ≥ 1`. -/
def buildModel (m : Model) (text : String) : Model :=
  let S := msplit m.use_chars text
  let ctx := ctxOf m.use_chars m.n S
  let md := (ngramsOf m.use_chars S m.n).foldl incrCount m.model_dict
  let sum_per_context := ((ctx.get? (m.n - 1)).getD []).map (fun p => sumVals p.2)
  let sum_all_context := sum_per_context.sum
  { m with
    model_dict := md,
    V := md.length,
    context_by_n := ctx,
    contexts_prob := sum_per_context.map (fun (s : Nat) => (s : ℚ) / (sum_all_context : ℚ)) }

/-! ### Evaluation (`evaluate`, `get_prob`, `smooth`)

The per-level tables of `context_by_n` are `defaultdict(int)`: reading a
missing context with `[]` would INSERT the default into the model, so the
read is modeled with explicit state passing (`ddGet`), and the absence of
such insertions is a theorem, not an assumption.  Membership tests
(`k in d`) never insert. -/

/-- The read `self.context_by_n[k][c]`.  A missing level `k` is a
`KeyError` (`none`).  A missing context on the `defaultdict(int)` level
inserts the default (Python inserts the int `0`; any further use of it
raises, so only the insertion itself matters — it is modeled as an empty
token table) and the model state changes. -/
def ddGet (m : Model) (k : Nat) (c : String) : Option Inner × Model :=
  match m.context_by_n.get? k with
  | none => (none, m)
  | some tbl =>
    match dlookup tbl c with
    | some inner => (some inner, m)
    | none => (some [], { m with context_by_n := m.context_by_n.set k (tbl ++ [(c, [])]) })

/-- `get_prob(context, last_gram)` (lines 240–255):
`c_ngram / c_context` with `c_ngram = context_by_n[len][context][last]`,
`c_context = sum(context_by_n[len][context].values())`.  `none` models the
Python exceptions (`KeyError` on a missing key, `ZeroDivisionError` when
`c_context = 0`). -/
def get_probS (m : Model) (context last_gram : String) : Option ℚ × Model :=
  let context_len := (msplit m.use_chars context).length
  match ddGet m context_len context with
  | (none, m1) => (none, m1)
  | (some inner, m1) =>
    match dlookup inner last_gram with
    | none => (none, m1)
    | some c_ngram =>
      match ddGet m1 context_len context with
      | (none, m2) => (none, m2)
      | (some inner2, m2) =>
        let c_context := sumVals inner2
        if c_context = 0 then (none, m2)
        else (some ((c_ngram : ℚ) / (c_context : ℚ)), m2)

/-- `smooth(context)` (lines 257–270): `1 / (c_context + V)` where
`c_context` is the total count of the context if it is present at its
level, else `0`.  `none` models `KeyError` on a missing level and
`ZeroDivisionError` when `c_context + V = 0`. -/
def smoothS (m : Model) (context : String) : Option ℚ × Model :=
  let context_len := (msplit m.use_chars context).length
  match m.context_by_n.get? context_len with
  | none => (none, m)
  | some tbl =>
    if dmem tbl context then
      match ddGet m context_len context with
      | (none, m1) => (none, m1)
      | (some inner, m1) =>
        if sumVals inner + m.V = 0 then (none, m1)
        else (some ((1 : ℚ) / ((sumVals inner : ℚ) + (m.V : ℚ))), m1)
    else
      if m.V = 0 then (none, m)
      else (some ((1 : ℚ) / ((0 : ℚ) + (m.V : ℚ))), m)

/-- The body of one iteration of the `evaluate` loop (lines 230–237): the
probability contributed by the position `i` (its logarithm is added to the
accumulator).  The condition
`context in context_by_n[cl] and last in context_by_n[cl][context]`
short-circuits: the inner `[context]` read only happens when the
membership test succeeded. -/
def evalPos (m : Model) (splitted : List String) (i : Nat) : Option ℚ × Model :=
  let ngram := get_ngram_by_last_index m.use_chars splitted i m.n
  let cg := split_context_gram m.use_chars ngram
  let context_len := (msplit m.use_chars cg.1).length
  match m.context_by_n.get? context_len with
  | none => (none, m)
  | some tbl =>
    if dmem tbl cg.1 then
      match ddGet m context_len cg.1 with
      | (none, m1) => (none, m1)
      | (some inner, m1) =>
        if dmem inner cg.2 then get_probS m1 cg.1 cg.2
        else smoothS m1 cg.1
    else smoothS m cg.1

/-- The `evaluate` loop over the (descending) position list, collecting
the per-position probabilities in loop order; an exception aborts the
loop. -/
def evalLoop (m : Model) (splitted : List String) : List Nat → Option (List ℚ) × Model
  | [] => (some [], m)
  | i :: rest =>
    match evalPos m splitted i with
    | (none, m1) => (none, m1)
    | (some q, m1) =>
      match evalLoop m1 splitted rest with
      | (none, m2) => (none, m2)
      | (some qs, m2) => (some (q :: qs), m2)

/-- The probabilities scored by `evaluate(text)` (lines 215–238), for
positions `len-1, …, 0` in loop order, with the final model state. -/
def evalTermsS (m : Model) (text : String) : Option (List ℚ) × Model :=
  let splitted := msplit m.use_chars text
  evalLoop m splitted (descRange splitted.length 1)

/-- `evaluate(text)`: the sum of `math.log` of every per-position
probability (`prob += math.log(…)` starting from `prob = 0`; collecting
the terms first and then summing their logarithms is the same sum). -/
noncomputable def evaluateS (m : Model) (text : String) : Option ℝ × Model :=
  ((evalTermsS m text).1.map (fun qs => (qs.map (fun (q : ℚ) => Real.log (q : ℝ))).sum),
   (evalTermsS m text).2)

/-! ### Generation (`generate` and helpers)

`random.choices(population, weights)[0]` draws one element of the
population (the weights only bias which one).  The draw is modeled by an
oracle value `r : Nat` selecting a position in the population, so every
theorem below holds for every possible draw.  `choices` on an empty
population raises (`none`). -/

/-- One draw from a population: `none` on an empty population (Python
raises), else the element at `r mod length`. -/
def pick {α : Type} (l : List α) (r : Nat) : Option α := l.get? (r % l.length)

/-- `get_initial_context(init_context)` (lines 171–190).  Result:
`none` = exception (`KeyError` for a missing level `n-1`, or `choices` on
an empty key list); `some none` = Python `None` (no key starts with the
seed); `some (some c)` = the drawn context.  The seed filter is Python
`context.startswith(init_context)` — a STRING prefix test. -/
def get_initial_contextS (m : Model) (init_context : Option String) (r : Nat) :
    Option (Option String) :=
  match m.context_by_n.get? (m.n - 1) with
  | none => none
  | some tbl =>
    match init_context with
    | none => (pick (keysOf tbl) r).map some
    | some ic =>
      let optional_context := (keysOf tbl).filter (fun c => strStartsWith c ic)
      if optional_context.length = 0 then some none
      else (pick optional_context r).map some

/-- `get_next_gram(context)` (lines 192–213).  `last_context` is
`''` when `n == 1`, else `join(context[-(n-1):])` (for `n = 0` the Python
slice is `context[1:]`).  Result: `none` = exception; `some none` =
Python `None` (context absent at level `n-1`); `some (some t)` = drawn
token.  The probability list `count/total` raises `ZeroDivisionError`
when the total is `0`. -/
def get_next_gramS (m : Model) (context : List String) (r : Nat) :
    Option (Option String) × Model :=
  let last_context :=
    if m.n = 1 then ""
    else mjoin m.use_chars (if m.n = 0 then context.drop 1
                            else context.drop (context.length - (m.n - 1)))
  let _last_context_len := (msplit m.use_chars last_context).length
  match m.context_by_n.get? (m.n - 1) with
  | none => (none, m)
  | some tbl =>
    if dmem tbl last_context then
      match ddGet m (m.n - 1) last_context with
      | (none, m1) => (none, m1)
      | (some inner, m1) =>
        if sumVals inner = 0 then (none, m1)
        else ((pick (keysOf inner) r).map some, m1)
    else (some none, m)

/-- The `while len(final_text) < n` loop of `generate` (lines 164–168),
drawing with oracle values `g i, g (i+1), …`. -/
def genLoop (m : Model) (final_text : List String) (target : Nat) (g : Nat → Nat) (i : Nat) :
    Option String × Model :=
  if _h : final_text.length < target then
    match get_next_gramS m final_text (g i) with
    | (none, m1) => (none, m1)
    | (some none, m1) => (some (mjoin m1.use_chars final_text), m1)
    | (some (some t), m1) => genLoop m1 (final_text ++ [t]) target g (i + 1)
  else (some (mjoin m.use_chars final_text), m)
termination_by target - final_text.length
decreasing_by simp; omega

/-- Lines 161–169 of `generate`: split the (established) context, return a
truncation if it is already longer than the target, else run the loop. -/
def genContinue (m : Model) (context : String) (target : Nat) (g : Nat → Nat) :
    Option String × Model :=
  let final_text := msplit m.use_chars context
  if final_text.length > target then
    (some (mjoin m.use_chars ((msplit m.use_chars context).take target)), m)
  else genLoop m final_text target g 1

/-- `generate(context, n)` (lines 137–169), with `target` the requested
length and `g` the oracle for the random draws (`g 0` for the initial
context, `g 1, g 2, …` for the next-gram draws).  `none` = exception.
Line 153 tests `context_len > n` STRICTLY; a seed of exactly `target`
tokens that is shorter than `n - 1` tokens is still extended.
When no seed was given and no extension happens (`n ≤ 1`),
`self.split(None)` raises in Python (`none` here). -/
def generateS (m : Model) (context? : Option String) (target : Nat) (g : Nat → Nat) :
    Option String × Model :=
  let context_len := match context? with
    | none => 0
    | some c => (msplit m.use_chars c).length
  if context_len > target then
    (some (mjoin m.use_chars ((msplit m.use_chars (context?.getD "")).take target)), m)
  else if context_len < m.n - 1 then
    match get_initial_contextS m context? (g 0) with
    | none => (none, m)
    | some none => (context?, m)
    | some (some nc) => genContinue m nc target g
  else
    match context? with
    | some c => genContinue m c target g
    | none => (none, m)

/-! ### Spec-side definitions

These follow the WORDS of the spec (§4.4 and the claims), to be compared
with the definitions translated from the code. -/

/-- Modelled from the spec (claim C1 / §4.4): the per-position log term.
The trailing window of at most `n` tokens ending at position `i` is split
into a context and its final token; if the `(context, final_token)` pair
was observed at that context's order, the term is
`ln(count of that token after that context / total count after that
context)`; otherwise it is `ln(1 / (count of the context, or 0 if unseen,
+ V))`.  A term whose probability has a zero denominator does not exist
(`none`). -/
noncomputable def specLogTerm (m : Model) (S : List String) (i : Nat) : Option ℝ :=
  let w := (S.take (i + 1)).drop (i + 1 - m.n)
  let context := mjoin m.use_chars w.dropLast
  let tok := (w.getLast?).getD ""
  let order := (msplit m.use_chars context).length
  let tbl := (m.context_by_n.get? order).getD []
  match dlookup tbl context with
  | some inner =>
    match dlookup inner tok with
    | some cnt =>
      if sumVals inner = 0 then none
      else some (Real.log (((cnt : ℚ) / (sumVals inner : ℚ) : ℚ) : ℝ))
    | none =>
      if sumVals inner + m.V = 0 then none
      else some (Real.log (((1 : ℚ) / ((sumVals inner : ℚ) + (m.V : ℚ)) : ℚ) : ℝ))
  | none =>
    if m.V = 0 then none
    else some (Real.log (((1 : ℚ) / ((0 : ℚ) + (m.V : ℚ)) : ℚ) : ℝ))

/-- Sum of a list of optional reals; the sum does not exist if any term
does not exist.  The empty sum is exactly `0`. -/
def optSumR : List (Option ℝ) → Option ℝ
  | [] => some 0
  | o :: rest => o.bind (fun x => (optSumR rest).map (fun y => x + y))

/-- Modelled from the spec (claim C1): `evaluate(text)` is the sum over
all token positions of the per-position log terms. -/
noncomputable def specEvaluate (m : Model) (text : String) : Option ℝ :=
  let S := msplit m.use_chars text
  optSumR ((List.range S.length).map (specLogTerm m S))

/-- Modelled from the spec (claim C2): the number of positions in the
tokenized corpus `S` where `c` occurs as a contiguous `k`-token span
immediately followed by one more token. -/
def specCount (chars : Bool) (S : List String) (k : Nat) (c : String) : Nat :=
  ((List.range (S.length - k)).filter
    (fun j => decide ((S.drop j).take k = msplit chars c))).length

/-! ### Proof infrastructure definitions -/

/-- The tokens observed after context `c` in a list of
`(context, token)` observations, in order. -/
def grams (prs : List (String × String)) (c : String) : List String :=
  (prs.filter (fun pr => decide (pr.1 = c))).map (fun pr => pr.2)

/-- Merging an optional existing inner table with a list of newly observed
tokens: absent and no observations stays absent; otherwise all
observations are counted on top of the existing table. -/
def mergedInner (o : Option Inner) (ts : List String) : Option Inner :=
  match o, ts with
  | none, [] => none
  | o, ts => some (List.foldl incrCount (o.getD []) ts)

/-- Fold step applying one `(context, token)` observation to a level
table. -/
def ctxStep (tbl : CtxTable) (pr : String × String) : CtxTable :=
  incrCtx tbl pr.1 pr.2

/-- Sequence a list of optional values; `none` if any element is
`none`. -/
def seqOpt {α : Type} : List (Option α) → Option (List α)
  | [] => some []
  | o :: rest => o.bind (fun x => (seqOpt rest).map (fun xs => x :: xs))

/-- The backoff context used by `evaluate` at position `i` of the token
list `S`: the trailing window of at most `n` tokens ending at `i`, with
its final token removed, re-joined per granularity. -/
def posContext (chars : Bool) (n : Nat) (S : List String) (i : Nat) : String :=
  mjoin chars (((S.take (i + 1)).drop (i + 1 - n)).dropLast)

/-! ### Lemmas: association lists -/

theorem dlookup_append {β : Type} (d d2 : List (String × β)) (k : String) :
    dlookup (d ++ d2) k =
      match dlookup d k with
      | some v => some v
      | none => dlookup d2 k := by
  induction d with
  | nil => simp [dlookup]
  | cons p rest ih =>
    by_cases h : p.1 = k <;> simp [dlookup, h, ih]

theorem setAssoc_of_not_mem {β : Type} (d : List (String × β)) (k : String) (v : β)
    (h : dlookup d k = none) : setAssoc d k v = d := by
  induction d with
  | nil => rfl
  | cons p rest ih =>
    simp only [dlookup] at h
    by_cases hp : p.1 = k
    · simp [hp] at h
    · simp only [setAssoc, if_neg hp]
      rw [if_neg hp] at h
      rw [ih h]

theorem dlookup_setAssoc_self {β : Type} (d : List (String × β)) (k : String) (v : β)
    (h : (dlookup d k).isSome) : dlookup (setAssoc d k v) k = some v := by
  induction d with
  | nil => simp [dlookup] at h
  | cons p rest ih =>
    by_cases hp : p.1 = k
    · simp [setAssoc, dlookup, hp]
    · simp only [dlookup, if_neg hp] at h
      simp [setAssoc, dlookup, hp, ih h]

theorem dlookup_setAssoc_ne {β : Type} (d : List (String × β)) (k k' : String) (v : β)
    (h : k' ≠ k) : dlookup (setAssoc d k v) k' = dlookup d k' := by
  induction d with
  | nil => rfl
  | cons p rest ih =>
    by_cases hp : p.1 = k
    · subst hp
      have hne : p.1 ≠ k' := fun hc => h hc.symm
      simp [setAssoc, dlookup, hne]
    · simp only [setAssoc, if_neg hp, dlookup]
      by_cases hp' : p.1 = k' <;> simp [hp', ih]

theorem incrCount_cons_ne (q : String × Nat) (rest : List (String × Nat)) (k : String)
    (h : ¬q.1 = k) : incrCount (q :: rest) k = q :: incrCount rest k := by
  unfold incrCount
  simp only [dlookup, if_neg h]
  cases hrest : dlookup rest k <;> simp [setAssoc, if_neg h, hrest]

theorem incrCount_cons_eq (q : String × Nat) (rest : List (String × Nat)) (k : String)
    (h : q.1 = k) : incrCount (q :: rest) k = (q.1, q.2 + 1) :: rest := by
  unfold incrCount
  simp [dlookup, h, setAssoc]

theorem dlookup_incrCount (d : List (String × Nat)) (k k' : String) :
    dlookup (incrCount d k) k' =
      if k' = k then some ((dlookup d k).getD 0 + 1) else dlookup d k' := by
  unfold incrCount
  by_cases hk : k' = k
  · subst hk
    cases h : dlookup d k' with
    | some c =>
      rw [dlookup_setAssoc_self _ _ _ (by simp [h])]
      simp [h]
    | none =>
      rw [dlookup_append]
      simp [h, dlookup]
  · cases h : dlookup d k with
    | some c => simp [hk, dlookup_setAssoc_ne _ _ _ _ hk]
    | none =>
      rw [dlookup_append]
      cases h2 : dlookup d k' <;> simp [hk, h2, dlookup, Ne.symm hk]

theorem sumVals_setAssoc_succ (d : Inner) (k : String) (c : Nat)
    (h : dlookup d k = some c) : sumVals (setAssoc d k (c + 1)) = sumVals d + 1 := by
  induction d with
  | nil => simp [dlookup] at h
  | cons p rest ih =>
    simp only [dlookup] at h
    by_cases hp : p.1 = k
    · rw [if_pos hp] at h
      cases h
      simp [setAssoc, hp, sumVals]
      omega
    · rw [if_neg hp] at h
      simp [setAssoc, hp, sumVals] at ih ⊢
      rw [ih h]
      omega

theorem sumVals_append (d d2 : Inner) : sumVals (d ++ d2) = sumVals d + sumVals d2 := by
  simp [sumVals]

theorem sumVals_incrCount (d : Inner) (k : String) :
    sumVals (incrCount d k) = sumVals d + 1 := by
  unfold incrCount
  cases h : dlookup d k with
  | some c => exact sumVals_setAssoc_succ d k c h
  | none => simp [sumVals_append, sumVals]

theorem sumVals_foldl_incrCount (d : Inner) (ts : List String) :
    sumVals (ts.foldl incrCount d) = sumVals d + ts.length := by
  induction ts generalizing d with
  | nil => simp
  | cons t rest ih =>
    simp only [List.foldl_cons, List.length_cons]
    rw [ih, sumVals_incrCount]
    omega

theorem dlookup_foldl_incrCount (ts : List String) (d : Inner) (k : String) :
    dlookup (ts.foldl incrCount d) k =
      match dlookup d k with
      | some v => some (v + countStr k ts)
      | none => if countStr k ts = 0 then none else some (countStr k ts) := by
  induction ts generalizing d with
  | nil => cases h : dlookup d k <;> simp [countStr, h]
  | cons t rest ih =>
    simp only [List.foldl_cons]
    rw [ih, dlookup_incrCount]
    by_cases ht : k = t
    · subst ht
      cases h : dlookup d k <;> simp [h, countStr] <;> omega
    · cases h : dlookup d k <;> simp [h, Ne.symm ht, countStr, ht]

theorem valsPos_incrCount (d : Inner) (k : String)
    (h : ∀ p ∈ d, 1 ≤ p.2) : ∀ p ∈ incrCount d k, 1 ≤ p.2 := by
  induction d with
  | nil =>
    intro p hp
    simp [incrCount, dlookup] at hp
    simp [hp]
  | cons q rest ih =>
    by_cases hq : q.1 = k
    · rw [incrCount_cons_eq q rest k hq]
      intro p hp
      rcases List.mem_cons.mp hp with h1 | h2
      · subst h1
        simp
      · exact h p (List.mem_cons_of_mem q h2)
    · rw [incrCount_cons_ne q rest k hq]
      intro p hp
      rcases List.mem_cons.mp hp with h1 | h2
      · exact h p (h1 ▸ List.mem_cons_self q rest)
      · exact ih (fun p hp => h p (List.mem_cons_of_mem q hp)) p h2

theorem valsPos_foldl_incrCount (ts : List String) (d : Inner)
    (h : ∀ p ∈ d, 1 ≤ p.2) : ∀ p ∈ ts.foldl incrCount d, 1 ≤ p.2 := by
  induction ts generalizing d with
  | nil => exact h
  | cons t rest ih => exact ih _ (valsPos_incrCount d t h)

theorem keys_incrCount_subset (d : Inner) (k k' : String)
    (h : k' ∈ keysOf (incrCount d k)) : k' ∈ keysOf d ∨ k' = k := by
  induction d with
  | nil =>
    simp [incrCount, dlookup, keysOf] at h
    exact Or.inr h
  | cons q rest ih =>
    by_cases hq : q.1 = k
    · rw [incrCount_cons_eq q rest k hq] at h
      simp only [keysOf, List.map_cons, List.mem_cons] at h ⊢
      rcases h with h1 | h2
      · exact Or.inl (Or.inl h1)
      · exact Or.inl (Or.inr h2)
    · rw [incrCount_cons_ne q rest k hq] at h
      simp only [keysOf, List.map_cons, List.mem_cons] at h ⊢
      rcases h with h1 | h2
      · exact Or.inl (Or.inl h1)
      · rcases ih h2 with hl | hr
        · exact Or.inl (Or.inr hl)
        · exact Or.inr hr

theorem keys_foldl_incrCount_subset (ts : List String) (d : Inner) (k' : String)
    (h : k' ∈ keysOf (ts.foldl incrCount d)) : k' ∈ keysOf d ∨ k' ∈ ts := by
  induction ts generalizing d with
  | nil => exact Or.inl h
  | cons t rest ih =>
    simp only [List.foldl_cons] at h
    rcases ih _ h with hl | hr
    · rcases keys_incrCount_subset d t k' hl with h1 | h2
      · exact Or.inl h1
      · exact Or.inr (by simp [h2])
    · exact Or.inr (List.mem_cons_of_mem t hr)

/-! ### Lemmas: the two-level context tables -/

theorem dlookup_incrCtx (tbl : CtxTable) (c t c' : String) :
    dlookup (incrCtx tbl c t) c' =
      if c' = c then some (incrCount ((dlookup tbl c).getD []) t)
      else dlookup tbl c' := by
  cases h : dlookup tbl c with
  | some inner =>
    cases ht : dlookup inner t with
    | some cnt =>
      have he : incrCtx tbl c t = setAssoc tbl c (setAssoc inner t (cnt + 1)) := by
        simp only [incrCtx, h, ht]
      rw [he]
      by_cases hc : c' = c
      · subst hc
        rw [dlookup_setAssoc_self _ _ _ (by simp [h])]
        simp [incrCount, h, ht]
      · rw [dlookup_setAssoc_ne _ _ _ _ hc, if_neg hc]
    | none =>
      have he : incrCtx tbl c t = setAssoc tbl c (inner ++ [(t, 1)]) := by
        simp only [incrCtx, h, ht]
      rw [he]
      by_cases hc : c' = c
      · subst hc
        rw [dlookup_setAssoc_self _ _ _ (by simp [h])]
        simp [incrCount, h, ht]
      · rw [dlookup_setAssoc_ne _ _ _ _ hc, if_neg hc]
  | none =>
    have he : incrCtx tbl c t = tbl ++ [(c, [(t, 1)])] := by
      simp only [incrCtx, h]
    rw [he, dlookup_append]
    by_cases hc : c' = c
    · subst hc
      simp [h, dlookup, incrCount]
    · cases h2 : dlookup tbl c' <;> simp [hc, h2, dlookup, Ne.symm hc]

theorem mergedInner_nil (o : Option Inner) : mergedInner o [] = o := by
  cases o <;> rfl

theorem mergedInner_some (o : Option Inner) (t : String) (ts : List String) :
    mergedInner o (t :: ts) = some (List.foldl incrCount (incrCount (o.getD []) t) ts) := by
  cases o <;> rfl

theorem mergedInner_some_left (i : Inner) (ts : List String) :
    mergedInner (some i) ts = some (List.foldl incrCount i ts) := by
  cases ts <;> rfl

theorem grams_cons (pr : String × String) (prs : List (String × String)) (c : String) :
    grams (pr :: prs) c =
      if pr.1 = c then pr.2 :: grams prs c else grams prs c := by
  by_cases h : pr.1 = c <;> simp [grams, h]

theorem dlookup_foldl_ctxStep (prs : List (String × String)) (tbl0 : CtxTable) (c : String) :
    dlookup (prs.foldl ctxStep tbl0) c = mergedInner (dlookup tbl0 c) (grams prs c) := by
  induction prs generalizing tbl0 with
  | nil => simp [grams, mergedInner_nil]
  | cons pr rest ih =>
    simp only [List.foldl_cons]
    rw [ih, grams_cons]
    by_cases hc : pr.1 = c
    · rw [if_pos hc, ctxStep, dlookup_incrCtx, if_pos hc.symm, mergedInner_some]
      subst hc
      cases h : dlookup tbl0 pr.1 with
      | some i => simp [h, mergedInner_some_left]
      | none => simp [h, mergedInner_some_left]
    · rw [if_neg hc, ctxStep, dlookup_incrCtx, if_neg (fun hc2 => hc hc2.symm)]

/-- The filtered observations that land on level `k`. -/
theorem get?_foldl_applyTriple (trs : List (Nat × String × String)) (ctxs : List CtxTable)
    (k : Nat) (h : ∀ tr ∈ trs, tr.1 < ctxs.length) :
    (trs.foldl applyTriple ctxs).get? k =
      (ctxs.get? k).map (fun t0 =>
        ((trs.filter (fun tr => decide (tr.1 = k))).map (fun tr => tr.2)).foldl ctxStep t0) := by
  induction trs generalizing ctxs with
  | nil =>
    simp only [List.foldl_nil, List.filter_nil, List.map_nil]
    cases h0 : ctxs.get? k <;> simp [h0]
  | cons tr rest ih =>
    simp only [List.foldl_cons, List.filter_cons]
    have htr : tr.1 < ctxs.length := h tr (List.mem_cons_self tr rest)
    have hrest : ∀ tr2 ∈ rest, tr2.1 < (applyTriple ctxs tr).length := by
      intro tr2 htr2
      have : (applyTriple ctxs tr).length = ctxs.length := by
        simp [applyTriple]
      rw [this]
      exact h tr2 (List.mem_cons_of_mem tr htr2)
    rw [ih (applyTriple ctxs tr) hrest]
    by_cases hk : tr.1 = k
    · subst hk
      have hget : (applyTriple ctxs tr).get? tr.1
          = some (incrCtx ((ctxs.get? tr.1).getD []) tr.2.1 tr.2.2) := by
        simp only [applyTriple]
        rw [List.get?_eq_getElem?, List.getElem?_set_self (by omega)]
      rw [hget]
      obtain ⟨t0, ht0⟩ : ∃ t0, ctxs.get? tr.1 = some t0 := by
        rw [List.get?_eq_getElem?]
        exact ⟨_, List.getElem?_eq_getElem htr⟩
      rw [ht0]
      simp only [decide_eq_true_eq, if_pos rfl, Option.map_some, Option.map_some,
        List.map_cons, List.foldl_cons]
      simp [ht0, ctxStep]
    · have hget : (applyTriple ctxs tr).get? k = ctxs.get? k := by
        simp only [applyTriple]
        rw [List.get?_eq_getElem?, List.getElem?_set_ne (by omega), ← List.get?_eq_getElem?]
      rw [hget]
      simp [hk]

theorem length_foldl_applyTriple (trs : List (Nat × String × String)) (ctxs : List CtxTable) :
    (trs.foldl applyTriple ctxs).length = ctxs.length := by
  induction trs generalizing ctxs with
  | nil => rfl
  | cons tr rest ih =>
    simp only [List.foldl_cons]
    rw [ih]
    simp [applyTriple]

/-! ### Lemmas: tokenizer -/

theorem splitChar_ne_nil (l : List Char) : splitChar l ≠ [] := by
  induction l with
  | nil => simp [splitChar]
  | cons c rest ih =>
    by_cases h : c = ' '
    · simp [splitChar, h]
    · simp only [splitChar, if_neg h]
      cases he : splitChar rest with
      | nil => simp
      | cons w ws => simp

theorem mem_splitChar_no_space (l : List Char) (w : List Char)
    (h : w ∈ splitChar l) : ' ' ∉ w := by
  induction l generalizing w with
  | nil =>
    simp [splitChar] at h
    simp [h]
  | cons c rest ih =>
    by_cases hc : c = ' '
    · simp only [splitChar, if_pos hc] at h
      rcases List.mem_cons.mp h with h1 | h2
      · simp [h1]
      · exact ih w h2
    · simp only [splitChar, if_neg hc] at h
      cases he : splitChar rest with
      | nil => exact absurd he (splitChar_ne_nil rest)
      | cons w0 ws =>
        rw [he] at h
        rcases List.mem_cons.mp h with h1 | h2
        · subst h1
          intro hmem
          rcases List.mem_cons.mp hmem with h3 | h4
          · exact hc h3.symm
          · exact ih w0 (he ▸ List.mem_cons_self w0 ws) h4
        · exact ih w (he ▸ List.mem_cons_of_mem w0 h2)

theorem splitChar_single (l : List Char) (h : ' ' ∉ l) : splitChar l = [l] := by
  induction l with
  | nil => rfl
  | cons c rest ih =>
    have hc : ¬c = ' ' := fun hcc => h (hcc ▸ List.mem_cons_self c rest)
    have hr : ' ' ∉ rest := fun hm => h (List.mem_cons_of_mem c hm)
    simp [splitChar, hc, ih hr]

theorem splitChar_append_space (w rest : List Char) (h : ' ' ∉ w) :
    splitChar (w ++ ' ' :: rest) = w :: splitChar rest := by
  induction w with
  | nil => simp [splitChar]
  | cons c cw ih =>
    have hc : ¬c = ' ' := fun hcc => h (hcc ▸ List.mem_cons_self c cw)
    have hw : ' ' ∉ cw := fun hm => h (List.mem_cons_of_mem c hm)
    simp only [List.cons_append, splitChar, if_neg hc, List.append_eq, ih hw]

theorem splitChar_joinData (ws : List (List Char)) (hne : ws ≠ [])
    (h : ∀ w ∈ ws, ' ' ∉ w) : splitChar (joinData ws) = ws := by
  induction ws with
  | nil => exact absurd rfl hne
  | cons w ws ih =>
    cases ws with
    | nil => exact splitChar_single w (h w (List.mem_cons_self _ _))
    | cons v vs =>
      show splitChar (w ++ ' ' :: joinData (v :: vs)) = _
      rw [splitChar_append_space w _ (h w (List.mem_cons_self _ _))]
      rw [ih (by simp) (fun w2 hw2 => h w2 (List.mem_cons_of_mem w hw2))]

theorem joinData_eq_nil_iff (ws : List (List Char)) :
    joinData ws = [] ↔ ws = [] ∨ ws = [[]] := by
  cases ws with
  | nil => simp [joinData]
  | cons w ws =>
    cases ws with
    | nil => simp [joinData]
    | cons v vs => simp [joinData]

theorem strMk_data (s : String) : String.mk s.data = s := rfl

theorem strMk_eq_empty_iff (l : List Char) : String.mk l = "" ↔ l = [] := by
  constructor
  · intro h
    have := congrArg String.data h
    simpa using this
  · intro h
    subst h
    rfl

theorem wsplit_mjoin (ts : List String) (hne : ts ≠ [])
    (h : ∀ t ∈ ts, ' ' ∉ t.data) : wsplit (mjoin false ts) = ts := by
  show (splitChar (joinData (ts.map String.data))).map String.mk = ts
  rw [splitChar_joinData (ts.map String.data) (by simpa using hne)
    (by
      intro w hw
      obtain ⟨t, ht, rfl⟩ := List.mem_map.mp hw
      exact h t ht)]
  simp [List.map_map, Function.comp_def, strMk_data]

theorem mjoin_word_eq_empty_iff (ts : List String) :
    mjoin false ts = "" ↔ ts = [] ∨ ts = [""] := by
  show String.mk (joinData (ts.map String.data)) = "" ↔ _
  rw [strMk_eq_empty_iff, joinData_eq_nil_iff]
  have hmap : ts.map String.data = [[]] ↔ ts = [""] := by
    cases ts with
    | nil => simp
    | cons t rest =>
      cases rest with
      | nil =>
        simp only [List.map_cons, List.map_nil]
        constructor
        · intro hh
          have hdata : t.data = [] := by simpa using hh
          have ht : t = "" := by
            rw [← strMk_data t, hdata]
          rw [ht]
        · intro hh
          have ht : t = "" := by simpa using hh
          subst ht
          rfl
      | cons v vs => simp
  rw [hmap, List.map_eq_nil_iff]

theorem msplit_mjoin_word (ts : List String) (hne1 : ts ≠ []) (hne2 : ts ≠ [""])
    (h : ∀ t ∈ ts, ' ' ∉ t.data) : msplit false (mjoin false ts) = ts := by
  show (if mjoin false ts = "" then [] else wsplit (mjoin false ts)) = ts
  rw [if_neg (by
    rw [mjoin_word_eq_empty_iff]
    rintro (h1 | h2)
    · exact hne1 h1
    · exact hne2 h2)]
  exact wsplit_mjoin ts hne1 h

theorem msplit_mjoin_word_le (ts : List String)
    (h : ∀ t ∈ ts, ' ' ∉ t.data) : (msplit false (mjoin false ts)).length ≤ ts.length := by
  by_cases h1 : ts = []
  · subst h1
    simp [mjoin, msplit, joinData, wsplit]
  · by_cases h2 : ts = [""]
    · subst h2
      show (if mjoin false [""] = "" then ([] : List String) else wsplit (mjoin false [""])).length ≤ 1
      rw [if_pos (by rw [mjoin_word_eq_empty_iff]; exact Or.inr rfl)]
      simp
    · rw [msplit_mjoin_word ts h1 h2 h]

theorem flatten_singleton_length (L : List (List Char)) (h : ∀ x ∈ L, x.length = 1) :
    L.flatten.length = L.length := by
  induction L with
  | nil => rfl
  | cons x rest ih =>
    simp only [List.flatten_cons, List.length_append, List.length_cons]
    rw [h x (List.mem_cons_self _ _), ih (fun y hy => h y (List.mem_cons_of_mem x hy))]
    omega

theorem flatten_singleton_dropLast (L : List (List Char)) (h : ∀ x ∈ L, x.length = 1) :
    L.flatten.dropLast = L.dropLast.flatten := by
  induction L with
  | nil => rfl
  | cons x rest ih =>
    cases rest with
    | nil =>
      obtain ⟨c, hc⟩ : ∃ c, x = [c] := by
        have := h x (List.mem_cons_self _ _)
        cases x with
        | nil => simp at this
        | cons c cs =>
          cases cs with
          | nil => exact ⟨c, rfl⟩
          | cons d ds => simp at this
      subst hc
      rfl
    | cons y ys =>
      have hrest : ∀ z ∈ y :: ys, z.length = 1 := fun z hz => h z (List.mem_cons_of_mem x hz)
      have hlen : ((y :: ys).flatten).length = (y :: ys).length :=
        flatten_singleton_length _ hrest
      have hFne : (y :: ys).flatten ≠ [] := by
        intro hnil
        rw [hnil] at hlen
        simp at hlen
      calc (x :: y :: ys).flatten.dropLast
          = (x ++ (y :: ys).flatten).dropLast := rfl
        _ = x ++ (y :: ys).flatten.dropLast := List.dropLast_append_of_ne_nil x hFne
        _ = x ++ (y :: ys).dropLast.flatten := by rw [ih hrest]
        _ = (x :: y :: ys).dropLast.flatten := rfl

theorem flatten_singleton_last (L : List (List Char)) (h : ∀ x ∈ L, x.length = 1)
    (hne : L ≠ []) :
    L.flatten.drop (L.flatten.length - 1) = (L.getLast?).getD [] := by
  induction L with
  | nil => exact absurd rfl hne
  | cons x rest ih =>
    cases rest with
    | nil =>
      obtain ⟨c, hc⟩ : ∃ c, x = [c] := by
        have := h x (List.mem_cons_self _ _)
        cases x with
        | nil => simp at this
        | cons c cs =>
          cases cs with
          | nil => exact ⟨c, rfl⟩
          | cons d ds => simp at this
      subst hc
      rfl
    | cons y ys =>
      have hx := h x (List.mem_cons_self _ _)
      have hrest : ∀ z ∈ y :: ys, z.length = 1 := fun z hz => h z (List.mem_cons_of_mem x hz)
      have hlen : ((y :: ys).flatten).length = ys.length + 1 := by
        rw [flatten_singleton_length _ hrest]
        rfl
      have h1 : (x :: y :: ys).flatten = x ++ (y :: ys).flatten := rfl
      have h2 : (x :: y :: ys).flatten.length - 1 = ys.length + 1 := by
        rw [h1]
        simp only [List.length_append, hx, hlen]
        omega
      rw [h2, h1, List.drop_append_eq_append_drop]
      rw [List.drop_eq_nil_of_le (by omega), List.nil_append]
      have h3 : ys.length + 1 - x.length = (y :: ys).flatten.length - 1 := by
        rw [hlen, hx]
      rw [h3, ih hrest (by simp)]
      simp

theorem msplit_false_eq (s : String) : msplit false s = if s = "" then [] else wsplit s := rfl

theorem msplit_true_eq (s : String) : msplit true s = s.data.map (fun c => String.mk [c]) := rfl

theorem mjoin_false_eq (ts : List String) :
    mjoin false ts = String.mk (joinData (ts.map String.data)) := rfl

theorem mjoin_true_eq (ts : List String) :
    mjoin true ts = String.mk (ts.map String.data).flatten := rfl

theorem split_context_gram_false_eq (ngram : String) :
    split_context_gram false ngram
      = (mjoin false (wsplit ngram).dropLast, ((wsplit ngram).getLast?).getD "") := rfl

theorem split_context_gram_true_eq (ngram : String) :
    split_context_gram true ngram
      = (String.mk ngram.data.dropLast,
         String.mk (ngram.data.drop (ngram.data.length - 1))) := rfl

theorem msplit_mjoin_chars (ts : List String) (h : ∀ t ∈ ts, t.data.length = 1) :
    msplit true (mjoin true ts) = ts := by
  show ((ts.map String.data).flatten).map (fun c => String.mk [c]) = ts
  induction ts with
  | nil => rfl
  | cons t rest ih =>
    obtain ⟨c, hc⟩ : ∃ c, t.data = [c] := by
      have h1 := h t (List.mem_cons_self _ _)
      cases hd : t.data with
      | nil =>
        rw [hd] at h1
        simp at h1
      | cons c cs =>
        rw [hd] at h1
        cases cs with
        | nil => exact ⟨c, rfl⟩
        | cons d ds => simp at h1
    have hrest : ∀ t2 ∈ rest, t2.data.length = 1 :=
      fun t2 ht2 => h t2 (List.mem_cons_of_mem t ht2)
    have hstep : ((t :: rest).map String.data).flatten
        = t.data ++ ((rest.map String.data)).flatten := rfl
    rw [hstep, hc, List.singleton_append, List.map_cons, ih hrest]
    rw [show String.mk [c] = t by rw [← hc, strMk_data]]

theorem mem_msplit_word_no_space (s t : String) (h : t ∈ msplit false s) :
    ' ' ∉ t.data := by
  rw [msplit_false_eq] at h
  by_cases hs : s = ""
  · rw [if_pos hs] at h
    simp at h
  · rw [if_neg hs] at h
    obtain ⟨w, hw, hwt⟩ := List.mem_map.mp h
    rw [← hwt]
    exact mem_splitChar_no_space s.data w hw

theorem mem_msplit_chars_single (s t : String) (h : t ∈ msplit true s) :
    t.data.length = 1 := by
  rw [msplit_true_eq] at h
  obtain ⟨c, hc, hct⟩ := List.mem_map.mp h
  rw [← hct]
  rfl

/-- Token wellformedness per granularity: characters are singleton
strings; word tokens never contain a space (both are true of every token
produced by `msplit`). -/
def tokOK (chars : Bool) (t : String) : Prop :=
  if chars then t.data.length = 1 else ' ' ∉ t.data

theorem mem_msplit_tokOK (chars : Bool) (s t : String) (h : t ∈ msplit chars s) :
    tokOK chars t := by
  cases chars with
  | false => exact mem_msplit_word_no_space s t h
  | true => exact mem_msplit_chars_single s t h

theorem msplit_mjoin_le (chars : Bool) (ts : List String)
    (h : ∀ t ∈ ts, tokOK chars t) :
    (msplit chars (mjoin chars ts)).length ≤ ts.length := by
  cases chars with
  | false => exact msplit_mjoin_word_le ts h
  | true => rw [msplit_mjoin_chars ts h]

theorem msplit_mjoin_eq (chars : Bool) (ts : List String)
    (h : ∀ t ∈ ts, tokOK chars t) (hne : ∀ t ∈ ts, t ≠ "") :
    msplit chars (mjoin chars ts) = ts := by
  cases chars with
  | false =>
    by_cases h1 : ts = []
    · subst h1
      rfl
    · refine msplit_mjoin_word ts h1 (fun h2 => ?_) h
      exact hne "" (h2 ▸ List.mem_cons_self "" []) rfl
  | true => exact msplit_mjoin_chars ts h

theorem split_context_gram_mjoin_word (w : List String) (hne : w ≠ [])
    (h : ∀ tk ∈ w, ' ' ∉ tk.data) :
    split_context_gram false (mjoin false w)
      = (mjoin false w.dropLast, (w.getLast?).getD "") := by
  rw [split_context_gram_false_eq, wsplit_mjoin w hne h]

theorem split_context_gram_mjoin_chars (w : List String)
    (h : ∀ tk ∈ w, tk.data.length = 1) :
    split_context_gram true (mjoin true w)
      = (mjoin true w.dropLast, (w.getLast?).getD "") := by
  rw [split_context_gram_true_eq]
  have hsingle : ∀ x ∈ w.map String.data, x.length = 1 := by
    intro x hx
    obtain ⟨t, ht, hxt⟩ := List.mem_map.mp hx
    rw [← hxt]
    exact h t ht
  have hd : (mjoin true w).data = (w.map String.data).flatten := rfl
  have h1 : String.mk ((mjoin true w).data.dropLast) = mjoin true w.dropLast := by
    rw [hd, flatten_singleton_dropLast _ hsingle, ← List.map_dropLast]
    rfl
  have h2 : String.mk ((mjoin true w).data.drop ((mjoin true w).data.length - 1))
      = (w.getLast?).getD "" := by
    rw [hd]
    by_cases hw : w = []
    · subst hw
      rfl
    · rw [flatten_singleton_last _ hsingle (by simpa using hw), List.getLast?_map]
      cases hlast : w.getLast? with
      | some t => exact strMk_data t
      | none => rfl
  rw [h1, h2]

theorem split_context_gram_mjoin (chars : Bool) (w : List String) (hne : w ≠ [])
    (h : ∀ tk ∈ w, tokOK chars tk) :
    split_context_gram chars (mjoin chars w)
      = (mjoin chars w.dropLast, (w.getLast?).getD "") := by
  cases chars with
  | false => exact split_context_gram_mjoin_word w hne h
  | true => exact split_context_gram_mjoin_chars w h

/-! ### Lemmas: trailing windows -/

theorem mem_descRange (len nn idx : Nat) (hnn : 1 ≤ nn) :
    idx ∈ descRange len nn ↔ nn - 1 ≤ idx ∧ idx < len := by
  unfold descRange
  simp only [List.mem_map, List.mem_range]
  constructor
  · rintro ⟨j, hj, rfl⟩
    omega
  · rintro ⟨h1, h2⟩
    exact ⟨len - 1 - idx, by omega, by omega⟩

theorem window_length (S : List String) (idx nn : Nat) (hidx : idx < S.length) :
    ((S.take (idx + 1)).drop (idx + 1 - nn)).length = min nn (idx + 1) := by
  simp only [List.length_drop, List.length_take]
  omega

theorem window_ne_nil (S : List String) (idx nn : Nat) (hnn : 1 ≤ nn)
    (hidx : idx < S.length) : (S.take (idx + 1)).drop (idx + 1 - nn) ≠ [] := by
  intro h
  have h2 := congrArg List.length h
  rw [window_length S idx nn hidx] at h2
  simp at h2
  omega

theorem window_mem (S : List String) (idx nn : Nat) (t : String)
    (h : t ∈ (S.take (idx + 1)).drop (idx + 1 - nn)) : t ∈ S :=
  List.mem_of_mem_take (List.mem_of_mem_drop h)

theorem window_getLast (S : List String) (idx nn : Nat) (hnn : 1 ≤ nn)
    (hidx : idx < S.length) :
    ((S.take (idx + 1)).drop (idx + 1 - nn)).getLast? = S[idx]? := by
  rw [List.getLast?_eq_getElem?, window_length S idx nn hidx, List.getElem?_drop]
  have harith : idx + 1 - nn + (min nn (idx + 1) - 1) = idx := by omega
  rw [harith, List.getElem?_take_of_lt (by omega)]

theorem window_dropLast (S : List String) (idx nn : Nat) (hnn : 1 ≤ nn)
    (hidx : idx < S.length) :
    ((S.take (idx + 1)).drop (idx + 1 - nn)).dropLast = (S.take idx).drop (idx + 1 - nn) := by
  rw [List.dropLast_eq_take, window_length S idx nn hidx, List.take_drop, List.take_take]
  congr 2
  omega

/-- The observation recorded for window size `nn` ending at `idx`, in
terms of the token slices (for any wellformed token list). -/
theorem buildTriple_eq (chars : Bool) (S : List String) (nn idx : Nat)
    (hnn : 1 ≤ nn) (hidx : idx < S.length) (hS : ∀ t ∈ S, tokOK chars t) :
    buildTriple chars S nn idx
      = ((msplit chars (mjoin chars ((S.take idx).drop (idx + 1 - nn)))).length,
         mjoin chars ((S.take idx).drop (idx + 1 - nn)),
         (S[idx]?).getD "") := by
  have hw := split_context_gram_mjoin chars ((S.take (idx + 1)).drop (idx + 1 - nn))
      (window_ne_nil S idx nn hnn hidx)
      (fun tk htk => hS tk (window_mem S idx nn tk htk))
  simp only [buildTriple, get_ngram_by_last_index, hw]
  rw [window_dropLast S idx nn hnn hidx, window_getLast S idx nn hnn hidx]

theorem context_slice_length (S : List String) (idx nn : Nat)
    (hnn : 1 ≤ nn) (hle : nn - 1 ≤ idx) (hidx : idx < S.length) :
    ((S.take idx).drop (idx + 1 - nn)).length = nn - 1 := by
  simp only [List.length_drop, List.length_take]
  omega

/-! ### Lemmas: structure of the training pass -/

theorem buildModel_n (m : Model) (text : String) : (buildModel m text).n = m.n := rfl

theorem buildModel_use_chars (m : Model) (text : String) :
    (buildModel m text).use_chars = m.use_chars := rfl

theorem buildModel_context_by_n (m : Model) (text : String) :
    (buildModel m text).context_by_n = ctxOf m.use_chars m.n (msplit m.use_chars text) := rfl

theorem buildModel_model_dict (m : Model) (text : String) :
    (buildModel m text).model_dict
      = (ngramsOf m.use_chars (msplit m.use_chars text) m.n).foldl incrCount m.model_dict := rfl

theorem buildModel_V (m : Model) (text : String) :
    (buildModel m text).V = (buildModel m text).model_dict.length := rfl

theorem buildModel_contexts_prob (m : Model) (text : String) :
    (buildModel m text).contexts_prob
      = ((((ctxOf m.use_chars m.n (msplit m.use_chars text)).get? (m.n - 1)).getD []).map
          (fun p => sumVals p.2)).map
          (fun (s : Nat) => (s : ℚ) / (((((ctxOf m.use_chars m.n (msplit m.use_chars text)).get?
              (m.n - 1)).getD []).map (fun p => sumVals p.2)).sum : ℚ)) := rfl

theorem levelTriples_level_le (chars : Bool) (S : List String) (nn : Nat) (hnn : 1 ≤ nn)
    (hS : ∀ t ∈ S, tokOK chars t) :
    ∀ tr ∈ levelTriples chars S nn, tr.1 ≤ nn - 1 := by
  intro tr htr
  obtain ⟨idx, hidx, rfl⟩ := List.mem_map.mp htr
  rw [mem_descRange S.length nn idx hnn] at hidx
  rw [buildTriple_eq chars S nn idx hnn hidx.2 hS]
  show (msplit chars (mjoin chars ((S.take idx).drop (idx + 1 - nn)))).length ≤ nn - 1
  have hslice : ∀ t ∈ (S.take idx).drop (idx + 1 - nn), tokOK chars t :=
    fun t ht => hS t (List.mem_of_mem_take (List.mem_of_mem_drop ht))
  calc (msplit chars (mjoin chars ((S.take idx).drop (idx + 1 - nn)))).length
      ≤ ((S.take idx).drop (idx + 1 - nn)).length := msplit_mjoin_le chars _ hslice
    _ = nn - 1 := context_slice_length S idx nn hnn hidx.1 hidx.2

theorem levelTriples_level_eq (chars : Bool) (S : List String) (nn : Nat) (hnn : 1 ≤ nn)
    (hS : ∀ t ∈ S, tokOK chars t) (hne : ∀ t ∈ S, t ≠ "") :
    ∀ tr ∈ levelTriples chars S nn, tr.1 = nn - 1 := by
  intro tr htr
  obtain ⟨idx, hidx, rfl⟩ := List.mem_map.mp htr
  rw [mem_descRange S.length nn idx hnn] at hidx
  rw [buildTriple_eq chars S nn idx hnn hidx.2 hS]
  show (msplit chars (mjoin chars ((S.take idx).drop (idx + 1 - nn)))).length = nn - 1
  have hmem : ∀ t ∈ (S.take idx).drop (idx + 1 - nn), t ∈ S :=
    fun t ht => List.mem_of_mem_take (List.mem_of_mem_drop ht)
  rw [msplit_mjoin_eq chars _ (fun t ht => hS t (hmem t ht)) (fun t ht => hne t (hmem t ht))]
  exact context_slice_length S idx nn hnn hidx.1 hidx.2

theorem mem_allTriples (chars : Bool) (S : List String) (n : Nat)
    (tr : Nat × String × String) :
    tr ∈ allTriples chars S n ↔ ∃ nn, 1 ≤ nn ∧ nn ≤ n ∧ tr ∈ levelTriples chars S nn := by
  unfold allTriples
  rw [List.mem_flatten]
  constructor
  · rintro ⟨l, hl, htr⟩
    rw [List.mem_map] at hl
    obtain ⟨nn, hnn, rfl⟩ := hl
    rw [List.mem_map] at hnn
    obtain ⟨j, hj, rfl⟩ := hnn
    rw [List.mem_range] at hj
    exact ⟨j + 1, by omega, by omega, htr⟩
  · rintro ⟨nn, h1, h2, htr⟩
    refine ⟨levelTriples chars S nn, ?_, htr⟩
    rw [List.mem_map]
    refine ⟨nn, ?_, rfl⟩
    rw [List.mem_map]
    exact ⟨nn - 1, by rw [List.mem_range]; omega, by omega⟩

theorem allTriples_level_lt (chars : Bool) (S : List String) (n : Nat)
    (hS : ∀ t ∈ S, tokOK chars t) :
    ∀ tr ∈ allTriples chars S n, tr.1 < n := by
  intro tr htr
  obtain ⟨nn, h1, h2, htr2⟩ := (mem_allTriples chars S n tr).mp htr
  have := levelTriples_level_le chars S nn h1 hS tr htr2
  omega

theorem allTriples_succ (chars : Bool) (S : List String) (n : Nat) :
    allTriples chars S (n + 1) = allTriples chars S n ++ levelTriples chars S (n + 1) := by
  unfold allTriples
  rw [List.range_succ]
  simp

theorem ctxOf_get? (chars : Bool) (n : Nat) (S : List String) (k : Nat)
    (hk : k < n) (hS : ∀ t ∈ S, tokOK chars t) :
    (ctxOf chars n S).get? k = some (List.foldl ctxStep []
      (((allTriples chars S n).filter (fun tr => decide (tr.1 = k))).map (fun tr => tr.2))) := by
  unfold ctxOf
  rw [get?_foldl_applyTriple _ _ _ (by
    intro tr htr
    rw [List.length_replicate]
    exact allTriples_level_lt chars S n hS tr htr)]
  rw [List.get?_eq_getElem?, List.getElem?_replicate_of_lt hk]
  rfl

theorem filter_allTriples (chars : Bool) (S : List String) (n k : Nat)
    (hk : k < n) (hS : ∀ t ∈ S, tokOK chars t) (hne : ∀ t ∈ S, t ≠ "") :
    (allTriples chars S n).filter (fun tr => decide (tr.1 = k))
      = levelTriples chars S (k + 1) := by
  induction n with
  | zero => omega
  | succ n ih =>
    rw [allTriples_succ, List.filter_append]
    by_cases hkn : k < n
    · rw [ih hkn]
      rw [List.filter_eq_nil_iff.mpr (by
        intro tr htr
        have := levelTriples_level_eq chars S (n + 1) (by omega) hS hne tr htr
        simp only [decide_eq_true_eq]
        omega)]
      rw [List.append_nil]
    · have hk_eq : k = n := by omega
      subst hk_eq
      rw [List.filter_eq_nil_iff.mpr (by
        intro tr htr
        have := allTriples_level_lt chars S k hS tr htr
        simp only [decide_eq_true_eq]
        omega)]
      rw [List.nil_append]
      rw [List.filter_eq_self.mpr (by
        intro tr htr
        have := levelTriples_level_eq chars S (k + 1) (by omega) hS hne tr htr
        simp only [decide_eq_true_eq]
        omega)]

theorem pairsAt_eq (chars : Bool) (S : List String) (k : Nat)
    (hS : ∀ t ∈ S, tokOK chars t) :
    (levelTriples chars S (k + 1)).map (fun tr => tr.2)
      = (descRange S.length (k + 1)).map (fun idx =>
          (mjoin chars ((S.take idx).drop (idx + 1 - (k + 1))), (S[idx]?).getD "")) := by
  unfold levelTriples
  rw [List.map_map]
  apply List.map_congr_left
  intro idx hidx
  rw [mem_descRange _ _ _ (by omega)] at hidx
  show (buildTriple chars S (k + 1) idx).2 = _
  rw [buildTriple_eq chars S (k + 1) idx (by omega) hidx.2 hS]

theorem length_filter_range_rev (N : Nat) (p : Nat → Bool) :
    ((List.range N).filter (fun j => p (N - 1 - j))).length
      = ((List.range N).filter p).length := by
  have h1 : (List.range N).map (fun j => N - 1 - j) = (List.range N).reverse := by
    have h0 := List.reverse_range' 0 N
    rw [← List.range_eq_range'] at h0
    rw [h0]
    apply List.map_congr_left
    intro a ha
    omega
  have h2 : (((List.range N).map (fun j => N - 1 - j)).filter p).length
      = ((List.range N).filter (fun j => p (N - 1 - j))).length := by
    rw [List.filter_map, List.length_map]
    rfl
  rw [← h2, h1, List.filter_reverse, List.length_reverse]

theorem mergedInner_none_some (ts : List String) (inner : Inner)
    (h : mergedInner none ts = some inner) :
    ts ≠ [] ∧ inner = List.foldl incrCount [] ts := by
  cases ts with
  | nil => simp [mergedInner] at h
  | cons t rest =>
    refine ⟨by simp, ?_⟩
    have h2 : mergedInner none (t :: rest) = some (List.foldl incrCount [] (t :: rest)) := rfl
    rw [h2] at h
    exact (Option.some_inj.mp h).symm

theorem grams_map_pairs {α : Type} (D : List α) (f : α → String × String) (c : String) :
    grams (D.map f) c = (D.filter (fun a => decide ((f a).1 = c))).map (fun a => (f a).2) := by
  unfold grams
  rw [List.filter_map, List.map_map]
  rfl

/-- Every stored inner table of a trained `context_by_n` is a count table
of a nonempty observation list. -/
theorem ctx_inner_char (chars : Bool) (n : Nat) (S : List String) (k : Nat)
    (c : String) (inner : Inner) (hk : k < n) (hS : ∀ t ∈ S, tokOK chars t)
    (hlook : dlookup (((ctxOf chars n S).get? k).getD []) c = some inner) :
    ∃ G : List String, G ≠ [] ∧ inner = List.foldl incrCount [] G := by
  rw [ctxOf_get? chars n S k hk hS] at hlook
  simp only [Option.getD_some] at hlook
  rw [dlookup_foldl_ctxStep] at hlook
  simp only [dlookup] at hlook
  obtain ⟨h1, h2⟩ := mergedInner_none_some _ _ hlook
  exact ⟨_, h1, h2⟩

theorem ctx_inner_valsPos (chars : Bool) (n : Nat) (S : List String) (k : Nat)
    (c : String) (inner : Inner) (hk : k < n) (hS : ∀ t ∈ S, tokOK chars t)
    (hlook : dlookup (((ctxOf chars n S).get? k).getD []) c = some inner) :
    ∀ p ∈ inner, 1 ≤ p.2 := by
  obtain ⟨G, _, hG⟩ := ctx_inner_char chars n S k c inner hk hS hlook
  rw [hG]
  exact valsPos_foldl_incrCount G [] (by simp)

theorem ctx_inner_sum_pos (chars : Bool) (n : Nat) (S : List String) (k : Nat)
    (c : String) (inner : Inner) (hk : k < n) (hS : ∀ t ∈ S, tokOK chars t)
    (hlook : dlookup (((ctxOf chars n S).get? k).getD []) c = some inner) :
    1 ≤ sumVals inner := by
  obtain ⟨G, hGne, hG⟩ := ctx_inner_char chars n S k c inner hk hS hlook
  rw [hG, sumVals_foldl_incrCount]
  have h1 : 0 < G.length := List.length_pos.mpr hGne
  omega

theorem msplit_token_length (chars : Bool) (t : String) (h1 : tokOK chars t)
    (h2 : t ≠ "") : (msplit chars t).length = 1 := by
  cases chars with
  | false =>
    rw [msplit_false_eq, if_neg h2]
    show ((splitChar t.data).map String.mk).length = 1
    rw [splitChar_single t.data h1]
    rfl
  | true =>
    rw [msplit_true_eq, List.length_map]
    exact h1

/-- Full characterization of a stored context of a trained model (corpus
with no empty token): its total count is the direct recount on the corpus,
its counts are positive, its keys are single tokens and the context has
exactly `k` tokens. -/
theorem trained_level_stats (n : Nat) (chars : Bool) (corpus : String)
    (hn : 1 ≤ n) (hne : ∀ t ∈ msplit chars corpus, t ≠ "") (k : Nat) (hk : k < n)
    (c : String) (inner : Inner)
    (hlook : dlookup (((buildModel (initModel n chars) corpus).context_by_n.get? k).getD [])
      c = some inner) :
    sumVals inner = specCount chars (msplit chars corpus) k c
    ∧ (∀ p ∈ inner, 1 ≤ p.2 ∧ (msplit chars p.1).length = 1)
    ∧ (msplit chars c).length = k := by
  set S := msplit chars corpus with hS_def
  have hS : ∀ t ∈ S, tokOK chars t := fun t ht => mem_msplit_tokOK chars corpus t ht
  have hctx : (buildModel (initModel n chars) corpus).context_by_n = ctxOf chars n S := rfl
  rw [hctx, ctxOf_get? chars n S k hk hS] at hlook
  simp only [Option.getD_some] at hlook
  rw [filter_allTriples chars S n k hk hS hne, pairsAt_eq chars S k hS] at hlook
  rw [dlookup_foldl_ctxStep] at hlook
  simp only [dlookup] at hlook
  obtain ⟨hGne, hGeq⟩ := mergedInner_none_some _ _ hlook
  rw [grams_map_pairs] at hGne hGeq
  simp only [] at hGne hGeq
  -- the observation tokens for context `c` at level `k`
  have hfil_ne : (descRange S.length (k + 1)).filter
      (fun idx => decide (mjoin chars ((S.take idx).drop (idx + 1 - (k + 1))) = c)) ≠ [] := by
    intro h0
    rw [h0] at hGne
    exact hGne rfl
  obtain ⟨idx0, hidx0⟩ := List.exists_mem_of_ne_nil _ hfil_ne
  have hidx0D := (List.mem_filter.mp hidx0).1
  have hidx0P : mjoin chars ((S.take idx0).drop (idx0 + 1 - (k + 1))) = c := by
    have h2 := (List.mem_filter.mp hidx0).2
    simpa using h2
  rw [mem_descRange _ _ _ (by omega)] at hidx0D
  have hslice_tokens : ∀ idx : Nat, ∀ t ∈ (S.take idx).drop (idx + 1 - (k + 1)), t ∈ S :=
    fun idx t ht => List.mem_of_mem_take (List.mem_of_mem_drop ht)
  have hmsplit_c : msplit chars c = (S.take idx0).drop (idx0 + 1 - (k + 1)) := by
    rw [← hidx0P, msplit_mjoin_eq chars _ (fun t ht => hS t (hslice_tokens idx0 t ht))
      (fun t ht => hne t (hslice_tokens idx0 t ht))]
  have hclen : (msplit chars c).length = k := by
    rw [hmsplit_c, context_slice_length S idx0 (k + 1) (by omega) (by omega) (by omega)]
    omega
  refine ⟨?_, ?_, hclen⟩
  · -- the recount
    have hsum : sumVals inner = ((descRange S.length (k + 1)).filter
        (fun idx => decide (mjoin chars ((S.take idx).drop (idx + 1 - (k + 1))) = c))).length := by
      rw [hGeq, sumVals_foldl_incrCount, List.length_map]
      have h0 : sumVals ([] : Inner) = 0 := rfl
      omega
    have hcongr : (descRange S.length (k + 1)).filter
        (fun idx => decide (mjoin chars ((S.take idx).drop (idx + 1 - (k + 1))) = c))
        = (descRange S.length (k + 1)).filter
        (fun idx => decide ((S.take idx).drop (idx + 1 - (k + 1)) = msplit chars c)) := by
      apply List.filter_congr
      intro idx hidxD
      rw [mem_descRange _ _ _ (by omega)] at hidxD
      apply decide_eq_decide.mpr
      constructor
      · intro hj
        rw [← hj, msplit_mjoin_eq chars _ (fun t ht => hS t (hslice_tokens idx t ht))
          (fun t ht => hne t (hslice_tokens idx t ht))]
      · intro hj
        rw [hj, hmsplit_c]
        exact hidx0P
    have hD_eq : descRange S.length (k + 1)
        = (List.range (S.length - k)).map (fun j => S.length - 1 - j) := by
      unfold descRange
      rw [show S.length + 1 - (k + 1) = S.length - k from by omega]
    have hmapped : (((List.range (S.length - k)).map (fun j => S.length - 1 - j)).filter
        (fun idx => decide ((S.take idx).drop (idx + 1 - (k + 1)) = msplit chars c))).length
        = ((List.range (S.length - k)).filter
          (fun j => decide ((S.take (S.length - 1 - j)).drop ((S.length - 1 - j) + 1 - (k + 1))
            = msplit chars c))).length := by
      rw [List.filter_map, List.length_map]
      rfl
    have hpoint : (List.range (S.length - k)).filter
        (fun j => decide ((S.take (S.length - 1 - j)).drop ((S.length - 1 - j) + 1 - (k + 1))
          = msplit chars c))
        = (List.range (S.length - k)).filter
        (fun j => decide ((S.drop (S.length - k - 1 - j)).take k = msplit chars c)) := by
      apply List.filter_congr
      intro j hj
      rw [List.mem_range] at hj
      have hslices : (S.take (S.length - 1 - j)).drop ((S.length - 1 - j) + 1 - (k + 1))
          = (S.drop (S.length - k - 1 - j)).take k := by
        rw [List.take_drop]
        rw [show S.length - 1 - j + 1 - (k + 1) = S.length - k - 1 - j from by omega]
        rw [show S.length - 1 - j = S.length - k - 1 - j + k from by omega]
      rw [hslices]
    have hrev := length_filter_range_rev (S.length - k)
      (fun j => decide ((S.drop j).take k = msplit chars c))
    rw [hsum, hcongr, hD_eq, hmapped, hpoint]
    exact hrev
  · -- keys and values
    intro p hp
    constructor
    · rw [hGeq] at hp
      exact valsPos_foldl_incrCount _ [] (by simp) p hp
    · rw [hGeq] at hp
      have hkey : p.1 ∈ keysOf (List.foldl incrCount []
          (((descRange S.length (k + 1)).filter
            (fun idx => decide (mjoin chars ((S.take idx).drop (idx + 1 - (k + 1))) = c))).map
            (fun idx => (S[idx]?).getD ""))) := List.mem_map_of_mem _ hp
      rcases keys_foldl_incrCount_subset _ _ _ hkey with h0 | hG
      · simp [keysOf] at h0
      · obtain ⟨idx, hidxf, hidx_eq⟩ := List.mem_map.mp hG
        have hidxD := (List.mem_filter.mp hidxf).1
        rw [mem_descRange _ _ _ (by omega)] at hidxD
        cases hsome : S[idx]? with
        | none =>
          rw [List.getElem?_eq_none_iff] at hsome
          omega
        | some t =>
          have htS : t ∈ S := List.getElem?_mem hsome
          have hpt : p.1 = t := by
            rw [← hidx_eq, hsome]
            rfl
          rw [hpt]
          exact msplit_token_length chars t (hS t htS) (hne t htS)

/-! ### Lemmas: a freshly trained model -/

theorem trained_n (n : Nat) (chars : Bool) (corpus : String) :
    (buildModel (initModel n chars) corpus).n = n := rfl

theorem trained_use_chars (n : Nat) (chars : Bool) (corpus : String) :
    (buildModel (initModel n chars) corpus).use_chars = chars := rfl

theorem trained_context_by_n (n : Nat) (chars : Bool) (corpus : String) :
    (buildModel (initModel n chars) corpus).context_by_n
      = ctxOf chars n (msplit chars corpus) := rfl

theorem trained_model_dict (n : Nat) (chars : Bool) (corpus : String) :
    (buildModel (initModel n chars) corpus).model_dict
      = (ngramsOf chars (msplit chars corpus) n).foldl incrCount [] := rfl

theorem trained_V (n : Nat) (chars : Bool) (corpus : String) :
    (buildModel (initModel n chars) corpus).V
      = ((ngramsOf chars (msplit chars corpus) n).foldl incrCount []).length := rfl

theorem trained_contexts_prob (n : Nat) (chars : Bool) (corpus : String) :
    (buildModel (initModel n chars) corpus).contexts_prob
      = ((((ctxOf chars n (msplit chars corpus)).get? (n - 1)).getD []).map
          (fun p => sumVals p.2)).map
          (fun (s : Nat) => (s : ℚ) / (((((ctxOf chars n (msplit chars corpus)).get? (n - 1)).getD
            []).map (fun p => sumVals p.2)).sum : ℚ)) := rfl

/-- A corpus shorter than `n` leaves the top context level empty. -/
theorem ctxOf_top_empty (chars : Bool) (n : Nat) (S : List String) (hn : 1 ≤ n)
    (hlen : S.length < n) (hS : ∀ t ∈ S, tokOK chars t) :
    (ctxOf chars n S).get? (n - 1) = some [] := by
  rw [ctxOf_get? chars n S (n - 1) (by omega) hS]
  rw [List.filter_eq_nil_iff.mpr (by
    intro tr htr
    obtain ⟨nn, h1, h2, htr2⟩ := (mem_allTriples chars S n tr).mp htr
    simp only [decide_eq_true_eq]
    by_cases hnn_top : nn = n
    · subst hnn_top
      exfalso
      have hdesc : descRange S.length nn = [] := by
        unfold descRange
        rw [show S.length + 1 - nn = 0 from by omega]
        rfl
      unfold levelTriples at htr2
      rw [hdesc] at htr2
      simp at htr2
    · have hle := levelTriples_level_le chars S nn h1 hS tr htr2
      omega)]
  rfl

/-! ### Claim C2 -/

/-- C2 (amended): for every model trained by `build_model` on a corpus
whose tokenization contains no empty token (any character-mode corpus, and
any word-mode corpus without leading, trailing or doubled spaces), every
level `k < n`, and every stored context `c` at level `k`: the sum of the
counts in `context_by_n[k][c]` equals the number of positions in the
tokenized corpus where `c` occurs as a contiguous `k`-token span
immediately followed by one more token; every stored count is at least 1,
`c` has exactly `k` tokens, and each key under `c` is a single token.
(The unrestricted claim is refuted by `claim_C2_counterexample`: an empty
word-mode token makes the training loop misfile its observation at the
wrong level.) -/
theorem claim_C2 (n : Nat) (chars : Bool) (corpus : String) (hn : 1 ≤ n)
    (hne : ∀ t ∈ msplit chars corpus, t ≠ "") (k : Nat) (hk : k < n)
    (c : String) (inner : Inner)
    (hlook : dlookup (((buildModel (initModel n chars) corpus).context_by_n.get? k).getD [])
      c = some inner) :
    sumVals inner = specCount chars (msplit chars corpus) k c
    ∧ (∀ p ∈ inner, 1 ≤ p.2 ∧ (msplit chars p.1).length = 1)
    ∧ (msplit chars c).length = k :=
  trained_level_stats n chars corpus hn hne k hk c inner hlook

/-- C2 witness: the spec's own fixture corpus, word mode, `n = 2`,
context `"a"` at level 1. -/
theorem claim_C2_witness :
    ((1 : Nat) ≤ 2) ∧ (∀ t ∈ msplit false "a b a b a", t ≠ "") ∧ ((1 : Nat) < 2)
    ∧ dlookup (((buildModel (initModel 2 false) "a b a b a").context_by_n.get? 1).getD [])
        "a" = some [("b", 2)]
    ∧ (sumVals [("b", 2)] = specCount false (msplit false "a b a b a") 1 "a"
       ∧ (∀ p ∈ [("b", 2)], 1 ≤ p.2 ∧ (msplit false p.1).length = 1)
       ∧ (msplit false "a").length = 1) :=
  ⟨by decide, by decide, by decide, by decide,
   claim_C2 2 false "a b a b a" (by decide) (by decide) 1 (by decide) "a" [("b", 2)]
     (by decide)⟩

/-- C2 counterexample: on the word-mode corpus `"a  a"` (double space, so
the token list is `["a", "", "a"]`), the trained `n = 2` model stores at
level 0 under the empty context a total count of 4, while the number of
positions where the empty (0-token) context is followed by one more token
is 3: the 2-gram observation `("", "a")` is misfiled at level 0 because
`len(self.split(context))` is 0 for the context made of one empty
token. -/
theorem claim_C2_counterexample :
    dlookup (((buildModel (initModel 2 false) "a  a").context_by_n.get? 0).getD []) ""
      = some [("a", 3), ("", 1)]
    ∧ sumVals [("a", 3), ("", 1)] ≠ specCount false (msplit false "a  a") 0 "" :=
  ⟨by decide, by decide⟩

/-! ### Claim C10 -/

/-- C10: for every corpus whose tokenization yields fewer than `n` tokens
(including the empty corpus), `build_model` terminates without raising:
`context_by_n[n-1]` exists and is empty, `V = 0`, and `contexts_prob` is
the empty list — the division defining `contexts_prob` maps over an empty
list, so it is never executed.  (`n ≥ 1`: for `n = 0` the constructor's
`context_by_n` has no level `n-1` at all and `build_model` itself raises
`KeyError`, so no trained model exists.) -/
theorem claim_C10 (n : Nat) (chars : Bool) (corpus : String) (hn : 1 ≤ n)
    (hshort : (msplit chars corpus).length < n) :
    (buildModel (initModel n chars) corpus).context_by_n.get? (n - 1) = some []
    ∧ (buildModel (initModel n chars) corpus).V = 0
    ∧ (buildModel (initModel n chars) corpus).contexts_prob = [] := by
  have hS : ∀ t ∈ msplit chars corpus, tokOK chars t := mem_msplit_tokOK chars corpus
  have htop : (ctxOf chars n (msplit chars corpus)).get? (n - 1) = some [] :=
    ctxOf_top_empty chars n (msplit chars corpus) hn hshort hS
  have hng : ngramsOf chars (msplit chars corpus) n = [] := by
    unfold ngramsOf descRange
    rw [show (msplit chars corpus).length + 1 - n = 0 from by omega]
    rfl
  refine ⟨by rw [trained_context_by_n]; exact htop, ?_, ?_⟩
  · rw [trained_V, hng]
    rfl
  · rw [trained_contexts_prob, htop]
    rfl

/-- C10 witness: word mode, `n = 2`, one-token corpus `"a"`. -/
theorem claim_C10_witness :
    ((1 : Nat) ≤ 2) ∧ ((msplit false "a").length < 2)
    ∧ ((buildModel (initModel 2 false) "a").context_by_n.get? 1 = some []
       ∧ (buildModel (initModel 2 false) "a").V = 0
       ∧ (buildModel (initModel 2 false) "a").contexts_prob = []) :=
  ⟨by decide, by decide, claim_C10 2 false "a" (by decide) (by decide)⟩

/-! ### Claim C7: the context distribution -/

theorem mem_setAssoc {β : Type} (d : List (String × β)) (k : String) (v : β)
    (p : String × β) (h : p ∈ setAssoc d k v) : p = (k, v) ∨ p ∈ d := by
  induction d with
  | nil => simp [setAssoc] at h
  | cons q rest ih =>
    by_cases hq : q.1 = k
    · simp only [setAssoc, if_pos hq] at h
      rcases List.mem_cons.mp h with h1 | h2
      · rw [hq] at h1
        exact Or.inl h1
      · exact Or.inr (List.mem_cons_of_mem q h2)
    · simp only [setAssoc, if_neg hq] at h
      rcases List.mem_cons.mp h with h1 | h2
      · exact Or.inr (h1 ▸ List.mem_cons_self q rest)
      · rcases ih h2 with hl | hr
        · exact Or.inl hl
        · exact Or.inr (List.mem_cons_of_mem q hr)

theorem mem_incrCtx (tbl : CtxTable) (c t : String) (p : String × Inner)
    (h : p ∈ incrCtx tbl c t) : (∃ i, p = (c, incrCount i t)) ∨ p ∈ tbl := by
  cases h1 : dlookup tbl c with
  | some inner =>
    cases ht : dlookup inner t with
    | some cnt =>
      have he : incrCtx tbl c t = setAssoc tbl c (setAssoc inner t (cnt + 1)) := by
        simp only [incrCtx, h1, ht]
      rw [he] at h
      rcases mem_setAssoc tbl c _ p h with h2 | h3
      · refine Or.inl ⟨inner, ?_⟩
        rw [h2]
        have h4 : setAssoc inner t (cnt + 1) = incrCount inner t := by
          simp only [incrCount, ht]
        rw [h4]
      · exact Or.inr h3
    | none =>
      have he : incrCtx tbl c t = setAssoc tbl c (inner ++ [(t, 1)]) := by
        simp only [incrCtx, h1, ht]
      rw [he] at h
      rcases mem_setAssoc tbl c _ p h with h2 | h3
      · refine Or.inl ⟨inner, ?_⟩
        rw [h2]
        have h4 : inner ++ [(t, 1)] = incrCount inner t := by
          simp only [incrCount, ht]
        rw [h4]
      · exact Or.inr h3
  | none =>
    have he : incrCtx tbl c t = tbl ++ [(c, [(t, 1)])] := by
      simp only [incrCtx, h1]
    rw [he] at h
    rcases List.mem_append.mp h with h2 | h3
    · exact Or.inr h2
    · refine Or.inl ⟨[], ?_⟩
      simp only [List.mem_singleton] at h3
      rw [h3]
      rfl

theorem entry_sum_pos_foldl (prs : List (String × String)) (tbl0 : CtxTable)
    (h0 : ∀ p ∈ tbl0, 1 ≤ sumVals p.2) :
    ∀ p ∈ List.foldl ctxStep tbl0 prs, 1 ≤ sumVals p.2 := by
  induction prs generalizing tbl0 with
  | nil => exact h0
  | cons pr rest ih =>
    simp only [List.foldl_cons]
    apply ih
    intro p hp
    rcases mem_incrCtx tbl0 pr.1 pr.2 p hp with ⟨i, hpe⟩ | hmem
    · rw [hpe]
      show 1 ≤ sumVals (incrCount i pr.2)
      rw [sumVals_incrCount]
      omega
    · exact h0 p hmem

theorem sum_map_cast_div (l : List Nat) (T : ℚ) :
    (l.map (fun (s : Nat) => (s : ℚ) / T)).sum = ((l.sum : Nat) : ℚ) / T := by
  induction l with
  | nil => simp
  | cons a rest ih =>
    simp only [List.map_cons, List.sum_cons, Nat.cast_add, ih, add_div]

/-- C7 (amended): for every model trained on a corpus with at least one
full `(n-1)`-token context (`context_by_n[n-1]` nonempty), the elements of
`contexts_prob` sum to exactly 1 in exact rational arithmetic.  (For a
model whose `context_by_n[n-1]` is empty — corpus shorter than `n` —
`contexts_prob` is the empty list and sums to 0, refuting the
unrestricted claim; see `claim_C7_counterexample`.) -/
theorem claim_C7 (n : Nat) (chars : Bool) (corpus : String) (hn : 1 ≤ n)
    (hne_tbl : (((buildModel (initModel n chars) corpus).context_by_n.get? (n - 1)).getD [])
      ≠ []) :
    (buildModel (initModel n chars) corpus).contexts_prob.sum = 1 := by
  rw [trained_contexts_prob]
  rw [trained_context_by_n] at hne_tbl
  set L := ((ctxOf chars n (msplit chars corpus)).get? (n - 1)).getD [] with hLdef
  have hpos : ∀ p ∈ L, 1 ≤ sumVals p.2 := by
    intro p hp
    cases hget : (ctxOf chars n (msplit chars corpus)).get? (n - 1) with
    | none =>
      exfalso
      apply hne_tbl
      rw [hLdef, hget]
      rfl
    | some tbl =>
      have hS : ∀ t ∈ msplit chars corpus, tokOK chars t := mem_msplit_tokOK chars corpus
      have h2 := ctxOf_get? chars n (msplit chars corpus) (n - 1) (by omega) hS
      rw [hget] at h2
      have htbl := Option.some_inj.mp h2
      have hpL : p ∈ tbl := by
        rw [hLdef, hget] at hp
        exact hp
      rw [htbl] at hpL
      exact entry_sum_pos_foldl _ [] (by simp) p hpL
  have hT : 1 ≤ (L.map (fun p => sumVals p.2)).sum := by
    cases hL : L with
    | nil => exact absurd hL hne_tbl
    | cons p rest =>
      have hp1 := hpos p (hL ▸ List.mem_cons_self p rest)
      simp only [List.map_cons, List.sum_cons]
      omega
  have hT0 : (((L.map (fun p => sumVals p.2)).sum : Nat) : ℚ) ≠ 0 := by
    exact_mod_cast (by omega : ((L.map (fun p => sumVals p.2)).sum : Nat) ≠ 0)
  rw [sum_map_cast_div]
  exact div_self hT0

/-- C7 witness: word mode, `n = 2`, corpus `"a b"`: one context at level
1, `contexts_prob = [1]`, summing to 1. -/
theorem claim_C7_witness :
    ((1 : Nat) ≤ 2)
    ∧ ((((buildModel (initModel 2 false) "a b").context_by_n.get? 1).getD []) ≠ [])
    ∧ (buildModel (initModel 2 false) "a b").contexts_prob.sum = 1 :=
  ⟨by decide, by decide, claim_C7 2 false "a b" (by decide) (by decide)⟩

/-- C7 counterexample: the claim quantifies over every trained model, but
training word mode `n = 2` on the one-token corpus `"a"` leaves
`context_by_n[1]` empty, so `contexts_prob` is `[]` and its sum is 0,
not 1. -/
theorem claim_C7_counterexample :
    (buildModel (initModel 2 false) "a").contexts_prob.sum ≠ 1 := by
  have h : (buildModel (initModel 2 false) "a").contexts_prob = [] := by decide
  rw [h]
  simp

/-! ### Claim C6: training twice -/

theorem keysOf_setAssoc {β : Type} (d : List (String × β)) (k : String) (v : β) :
    keysOf (setAssoc d k v) = keysOf d := by
  induction d with
  | nil => rfl
  | cons q rest ih =>
    by_cases hq : q.1 = k <;> simp [setAssoc, hq, keysOf] at ih ⊢ <;> exact ih

theorem dlookup_none_iff_keys {β : Type} (d : List (String × β)) (k : String) :
    dlookup d k = none ↔ k ∉ keysOf d := by
  induction d with
  | nil => simp [dlookup, keysOf]
  | cons q rest ih =>
    by_cases hq : q.1 = k
    · simp [dlookup, hq, keysOf]
    · simp [dlookup, hq, keysOf, Ne.symm hq] at ih ⊢
      exact ih

theorem keysNodup_incrCount (d : List (String × Nat)) (k : String)
    (h : (keysOf d).Nodup) : (keysOf (incrCount d k)).Nodup := by
  unfold incrCount
  cases hl : dlookup d k with
  | some c =>
    rw [keysOf_setAssoc]
    exact h
  | none =>
    have hk : k ∉ keysOf d := (dlookup_none_iff_keys d k).mp hl
    have : keysOf (d ++ [(k, 1)]) = keysOf d ++ [k] := by
      simp [keysOf]
    rw [this]
    rw [List.nodup_append]
    exact ⟨h, List.nodup_singleton k, by simpa [List.disjoint_singleton] using hk⟩

theorem keysNodup_foldl_incrCount (ts : List String) (d : List (String × Nat))
    (h : (keysOf d).Nodup) : (keysOf (ts.foldl incrCount d)).Nodup := by
  induction ts generalizing d with
  | nil => exact h
  | cons t rest ih => exact ih _ (keysNodup_incrCount d t h)

theorem dlookup_of_mem_nodup {β : Type} (d : List (String × β)) (p : String × β)
    (hnd : (keysOf d).Nodup) (hp : p ∈ d) : dlookup d p.1 = some p.2 := by
  induction d with
  | nil => simp at hp
  | cons q rest ih =>
    rcases List.mem_cons.mp hp with h1 | h2
    · subst h1
      simp [dlookup]
    · have hq : q.1 ≠ p.1 := by
        intro he
        have h3 : p.1 ∈ keysOf rest := List.mem_map_of_mem _ h2
        simp only [keysOf, List.map_cons, List.nodup_cons] at hnd
        exact hnd.1 (he ▸ h3)
      simp only [dlookup, if_neg hq]
      exact ih (by
        simp only [keysOf, List.map_cons, List.nodup_cons] at hnd
        exact hnd.2) h2

theorem countStr_pos_of_mem (t : String) (l : List String) (h : t ∈ l) :
    countStr t l ≠ 0 := by
  induction l with
  | nil => simp at h
  | cons a rest ih =>
    rcases List.mem_cons.mp h with h1 | h2
    · subst h1
      simp [countStr]
    · simp only [countStr]
      have := ih h2
      omega

theorem incrCount_present_map (d : List (String × Nat)) (a : String)
    (hnd : (keysOf d).Nodup) (hmem : (dlookup d a).isSome) :
    incrCount d a = d.map (fun p => if p.1 = a then (p.1, p.2 + 1) else p) := by
  induction d with
  | nil => simp [dlookup] at hmem
  | cons q rest ih =>
    by_cases hq : q.1 = a
    · rw [incrCount_cons_eq q rest a hq]
      simp only [List.map_cons, if_pos hq]
      congr 1
      have hrest : ∀ p ∈ rest, p.1 ≠ a := by
        intro p hp he
        have h3 : p.1 ∈ keysOf rest := List.mem_map_of_mem _ hp
        simp only [keysOf, List.map_cons, List.nodup_cons] at hnd
        exact hnd.1 (hq ▸ he ▸ h3)
      rw [List.map_congr_left (fun p hp => if_neg (hrest p hp))]
      simp
    · rw [incrCount_cons_ne q rest a hq]
      simp only [List.map_cons, if_neg hq]
      congr 1
      apply ih
      · simp only [keysOf, List.map_cons, List.nodup_cons] at hnd
        exact hnd.2
      · simp only [dlookup, if_neg hq] at hmem
        exact hmem

theorem foldl_incrCount_all_mem (ts : List String) (d : List (String × Nat))
    (hnd : (keysOf d).Nodup) (hall : ∀ t ∈ ts, (dlookup d t).isSome) :
    ts.foldl incrCount d = d.map (fun p => (p.1, p.2 + countStr p.1 ts)) := by
  induction ts generalizing d with
  | nil =>
    simp only [List.foldl_nil, countStr]
    rw [List.map_congr_left (fun p _ => by rw [Nat.add_zero])]
    simp
  | cons a rest ih =>
    simp only [List.foldl_cons]
    rw [ih (incrCount d a)
      (keysNodup_incrCount d a hnd)
      (by
        intro t ht
        rw [dlookup_incrCount]
        by_cases hta : t = a
        · simp [hta]
        · simp only [if_neg hta]
          exact hall t (List.mem_cons_of_mem a ht))]
    rw [incrCount_present_map d a hnd (hall a (List.mem_cons_self a rest)), List.map_map]
    apply List.map_congr_left
    intro p _
    simp only [Function.comp]
    by_cases hpa : p.1 = a
    · simp only [if_pos hpa, countStr, hpa]
      simp
      omega
    · simp only [if_neg hpa, countStr]
      have : ¬a = p.1 := fun he => hpa he.symm
      simp [this]

theorem double_count_table (l : List String) :
    List.foldl incrCount (List.foldl incrCount [] l) l
      = (List.foldl incrCount [] l).map (fun p => (p.1, 2 * p.2)) := by
  have hnd : (keysOf (List.foldl incrCount [] l)).Nodup :=
    keysNodup_foldl_incrCount l [] (by simp [keysOf])
  have hall : ∀ t ∈ l, (dlookup (List.foldl incrCount [] l) t).isSome := by
    intro t ht
    rw [dlookup_foldl_incrCount]
    simp only [dlookup]
    rw [if_neg (countStr_pos_of_mem t l ht)]
    rfl
  rw [foldl_incrCount_all_mem l _ hnd hall]
  apply List.map_congr_left
  intro p hp
  have h1 := dlookup_of_mem_nodup _ p hnd hp
  rw [dlookup_foldl_incrCount] at h1
  simp only [dlookup] at h1
  by_cases hc : countStr p.1 l = 0
  · rw [if_pos hc] at h1
    simp at h1
  · rw [if_neg hc] at h1
    have h2 : countStr p.1 l = p.2 := Option.some_inj.mp h1
    rw [h2]
    congr 1
    omega

/-- C6 (amended): calling `build_model` twice on the same corpus from a
fresh instance yields the same `context_by_n`, the same `V`, and the same
`contexts_prob` as one call — but NOT the same `model_dict`:
`build_model` re-initializes `context_by_n` (line 36) yet never resets
`model_dict`, so the second pass doubles every n-gram count (same keys in
the same order, each count multiplied by 2).  The claim's requirement of
count-for-count equal `model_dict` is refuted by
`claim_C6_counterexample`. -/
theorem claim_C6 (n : Nat) (chars : Bool) (corpus : String) (hn : 1 ≤ n) :
    (buildModel (buildModel (initModel n chars) corpus) corpus).context_by_n
      = (buildModel (initModel n chars) corpus).context_by_n
    ∧ (buildModel (buildModel (initModel n chars) corpus) corpus).V
      = (buildModel (initModel n chars) corpus).V
    ∧ (buildModel (buildModel (initModel n chars) corpus) corpus).model_dict
      = (buildModel (initModel n chars) corpus).model_dict.map (fun p => (p.1, 2 * p.2)) := by
  have hmd : (buildModel (buildModel (initModel n chars) corpus) corpus).model_dict
      = (buildModel (initModel n chars) corpus).model_dict.map (fun p => (p.1, 2 * p.2)) := by
    show (ngramsOf chars (msplit chars corpus) n).foldl incrCount
        ((ngramsOf chars (msplit chars corpus) n).foldl incrCount [])
      = ((ngramsOf chars (msplit chars corpus) n).foldl incrCount []).map
          (fun p => (p.1, 2 * p.2))
    exact double_count_table _
  refine ⟨rfl, ?_, hmd⟩
  show (buildModel (buildModel (initModel n chars) corpus) corpus).model_dict.length
    = (buildModel (initModel n chars) corpus).model_dict.length
  rw [hmd, List.length_map]

/-- C6 witness: `n = 1`, word mode, corpus `"a"`. -/
theorem claim_C6_witness :
    ((1 : Nat) ≤ 1)
    ∧ ((buildModel (buildModel (initModel 1 false) "a") "a").context_by_n
        = (buildModel (initModel 1 false) "a").context_by_n
      ∧ (buildModel (buildModel (initModel 1 false) "a") "a").V
        = (buildModel (initModel 1 false) "a").V
      ∧ (buildModel (buildModel (initModel 1 false) "a") "a").model_dict
        = (buildModel (initModel 1 false) "a").model_dict.map (fun p => (p.1, 2 * p.2))) :=
  ⟨by decide, claim_C6 1 false "a" (by decide)⟩

/-- C6 counterexample: training twice on `"a"` (word mode, `n = 1`) gives
`model_dict = {'a': 2}`, not the `{'a': 1}` of a single call —
`build_model` accumulates into `model_dict` instead of resetting it. -/
theorem claim_C6_counterexample :
    (buildModel (buildModel (initModel 1 false) "a") "a").model_dict
      ≠ (buildModel (initModel 1 false) "a").model_dict := by
  decide

/-! ### Claim C9: the constructor -/

/-- C9 (amended): `__init__` (lines 14–27) performs no validation at all:
every window size, including a non-positive one, is accepted and stored on
the freshly produced model object, and construction never fails.  (The
embedding uses `Nat` for `n`, with `n = 0` standing for the non-positive
case; the Python body is a plain sequence of field assignments with no
check and no raise, so the same holds for negative values.)  The original
claim — rejection at construction — is refuted by
`claim_C9_counterexample`. -/
theorem claim_C9 (n : Nat) (chars : Bool) :
    initModel n chars
      = { n := n, use_chars := chars, model_dict := [], V := 0,
          context_by_n := [], contexts_prob := [] } := rfl

/-- C9 counterexample: constructing with the non-positive window size 0
succeeds and produces an ordinary model object storing `n = 0`; nothing
is rejected at construction. -/
theorem claim_C9_counterexample :
    (initModel 0 false).n = 0 ∧ (initModel 0 false).model_dict = []
    ∧ (initModel 0 false).contexts_prob = [] := by
  decide

/-! ### Claim C8: evaluation and generation do not mutate the model -/

theorem ddGet_of_some (m : Model) (k : Nat) (c : String) (tbl : CtxTable) (inner : Inner)
    (hget : m.context_by_n.get? k = some tbl) (hl : dlookup tbl c = some inner) :
    ddGet m k c = (some inner, m) := by
  simp only [ddGet, hget, hl]

theorem ddGet_none_level (m : Model) (k : Nat) (c : String)
    (hget : m.context_by_n.get? k = none) : ddGet m k c = (none, m) := by
  simp only [ddGet, hget]

theorem smoothS_snd (m : Model) (context : String) : (smoothS m context).2 = m := by
  simp only [smoothS]
  cases hget : m.context_by_n.get? ((msplit m.use_chars context).length) with
  | none => rfl
  | some tbl =>
    by_cases hmem : dmem tbl context
    · obtain ⟨inner, hinner⟩ : ∃ i, dlookup tbl context = some i := by
        unfold dmem at hmem
        cases h : dlookup tbl context with
        | none => rw [h] at hmem; simp at hmem
        | some i => exact ⟨i, rfl⟩
      rw [ddGet_of_some m _ context tbl inner hget hinner]
      simp only [if_pos hmem]
      by_cases hz : sumVals inner + m.V = 0 <;> simp [hz]
    · simp only [if_neg hmem]
      by_cases hz : m.V = 0 <;> simp [hz]

theorem get_probS_snd (m : Model) (context last_gram : String) (tbl : CtxTable)
    (inner : Inner)
    (hget : m.context_by_n.get? ((msplit m.use_chars context).length) = some tbl)
    (hl : dlookup tbl context = some inner) :
    (get_probS m context last_gram).2 = m := by
  simp only [get_probS, ddGet_of_some m _ context tbl inner hget hl]
  cases hlast : dlookup inner last_gram with
  | none => rfl
  | some c_ngram =>
    by_cases hz : sumVals inner = 0 <;> simp [hz]

theorem evalPos_snd (m : Model) (S : List String) (i : Nat) : (evalPos m S i).2 = m := by
  simp only [evalPos]
  cases hget : m.context_by_n.get?
      ((msplit m.use_chars (split_context_gram m.use_chars
        (get_ngram_by_last_index m.use_chars S i m.n)).1).length) with
  | none => rfl
  | some tbl =>
    by_cases hmem : dmem tbl (split_context_gram m.use_chars
        (get_ngram_by_last_index m.use_chars S i m.n)).1
    · obtain ⟨inner, hinner⟩ : ∃ i2, dlookup tbl (split_context_gram m.use_chars
          (get_ngram_by_last_index m.use_chars S i m.n)).1 = some i2 := by
        unfold dmem at hmem
        cases h : dlookup tbl (split_context_gram m.use_chars
            (get_ngram_by_last_index m.use_chars S i m.n)).1 with
        | none => rw [h] at hmem; simp at hmem
        | some i2 => exact ⟨i2, rfl⟩
      rw [ddGet_of_some m _ _ tbl inner hget hinner]
      simp only [if_pos hmem]
      by_cases hlast : dmem inner (split_context_gram m.use_chars
          (get_ngram_by_last_index m.use_chars S i m.n)).2
      · simp only [if_pos hlast]
        exact get_probS_snd m _ _ tbl inner hget hinner
      · simp only [if_neg hlast]
        exact smoothS_snd m _
    · simp only [if_neg hmem]
      exact smoothS_snd m _

theorem evalLoop_snd (S : List String) (l : List Nat) (m : Model) :
    (evalLoop m S l).2 = m := by
  induction l generalizing m with
  | nil => rfl
  | cons i rest ih =>
    unfold evalLoop
    cases h : evalPos m S i with
    | mk o m1 =>
      have hm1 : m1 = m := by
        have h2 := evalPos_snd m S i
        rw [h] at h2
        exact h2
      cases o with
      | none => exact hm1
      | some q =>
        show (match evalLoop m1 S rest with
          | (none, m2) => ((none : Option (List ℚ)), m2)
          | (some qs, m2) => (some (q :: qs), m2)).2 = m
        cases h3 : evalLoop m1 S rest with
        | mk o2 m2 =>
          have hm2 : m2 = m1 := by
            have h4 := ih m1
            rw [h3] at h4
            exact h4
          cases o2 <;> simp [hm2, hm1]

theorem evalTermsS_snd (m : Model) (text : String) : (evalTermsS m text).2 = m :=
  evalLoop_snd _ _ m

theorem get_next_gramS_snd (m : Model) (context : List String) (r : Nat) :
    (get_next_gramS m context r).2 = m := by
  simp only [get_next_gramS]
  cases hget : m.context_by_n.get? (m.n - 1) with
  | none => rfl
  | some tbl =>
    by_cases hmem : dmem tbl (if m.n = 1 then ""
        else mjoin m.use_chars (if m.n = 0 then context.drop 1
          else context.drop (context.length - (m.n - 1))))
    · obtain ⟨inner, hinner⟩ : ∃ i, dlookup tbl (if m.n = 1 then ""
          else mjoin m.use_chars (if m.n = 0 then context.drop 1
            else context.drop (context.length - (m.n - 1)))) = some i := by
        unfold dmem at hmem
        cases h : dlookup tbl (if m.n = 1 then ""
            else mjoin m.use_chars (if m.n = 0 then context.drop 1
              else context.drop (context.length - (m.n - 1)))) with
        | none => rw [h] at hmem; simp at hmem
        | some i => exact ⟨i, rfl⟩
      rw [ddGet_of_some m _ _ tbl inner hget hinner]
      simp only [if_pos hmem]
      by_cases hz : sumVals inner = 0 <;> simp [hz]
    · simp only [if_neg hmem]

theorem genLoop_snd (fuel : Nat) : ∀ (m : Model) (ft : List String) (target : Nat)
    (g : Nat → Nat) (i : Nat), target - ft.length ≤ fuel → (genLoop m ft target g i).2 = m := by
  induction fuel with
  | zero =>
    intro m ft target g i hfuel
    rw [genLoop]
    rw [dif_neg (by omega)]
  | succ fuel ih =>
    intro m ft target g i hfuel
    rw [genLoop]
    by_cases hlen : ft.length < target
    · rw [dif_pos hlen]
      cases h : get_next_gramS m ft (g i) with
      | mk o m1 =>
        have hm1 : m1 = m := by
          have h2 := get_next_gramS_snd m ft (g i)
          rw [h] at h2
          exact h2
        cases o with
        | none => exact hm1
        | some o2 =>
          cases o2 with
          | none => exact hm1
          | some t =>
            show (genLoop m1 (ft ++ [t]) target g (i + 1)).2 = m
            rw [ih m1 (ft ++ [t]) target g (i + 1) (by simp; omega)]
            exact hm1
    · rw [dif_neg hlen]

theorem genContinue_snd (m : Model) (context : String) (target : Nat) (g : Nat → Nat) :
    (genContinue m context target g).2 = m := by
  simp only [genContinue]
  by_cases hlen : (msplit m.use_chars context).length > target
  · rw [if_pos hlen]
  · rw [if_neg hlen]
    exact genLoop_snd (target - (msplit m.use_chars context).length) m _ target g 1
      (by omega)

theorem generateS_snd (m : Model) (context? : Option String) (target : Nat)
    (g : Nat → Nat) : (generateS m context? target g).2 = m := by
  cases context? with
  | none =>
    simp only [generateS]
    by_cases h1 : 0 > target
    · rw [if_pos h1]
    · rw [if_neg h1]
      by_cases h2 : 0 < m.n - 1
      · rw [if_pos h2]
        cases get_initial_contextS m none (g 0) with
        | none => rfl
        | some o =>
          cases o with
          | none => rfl
          | some nc => exact genContinue_snd m nc target g
      · rw [if_neg h2]
  | some c =>
    simp only [generateS]
    by_cases h1 : (msplit m.use_chars c).length > target
    · rw [if_pos h1]
    · rw [if_neg h1]
      by_cases h2 : (msplit m.use_chars c).length < m.n - 1
      · rw [if_pos h2]
        cases get_initial_contextS m (some c) (g 0) with
        | none => rfl
        | some o =>
          cases o with
          | none => rfl
          | some nc => exact genContinue_snd m nc target g
      · rw [if_neg h2]
        exact genContinue_snd m c target g

/-- C8: for every model state (in particular every trained model), every
call to `evaluate` and every call to `generate` (any seed, target length
and random draws) leaves the model — `model_dict`, `context_by_n`, `V`
and `contexts_prob` — unchanged.  The `defaultdict` reads
`context_by_n[k][c]`, which in Python would insert a default entry for a
missing context, are threaded through the state (`ddGet`); the theorem
shows the membership guards make every such read hit an existing key, so
no insertion ever happens. -/
theorem claim_C8 (m : Model) (text : String) (context? : Option String) (target : Nat)
    (g : Nat → Nat) :
    (evaluateS m text).2 = m ∧ (generateS m context? target g).2 = m :=
  ⟨evalTermsS_snd m text, generateS_snd m context? target g⟩

/-! ### Claims C3 and C4: seeded generation -/

theorem pick_mem {α : Type} (l : List α) (r : Nat) (x : α) (h : pick l r = some x) :
    x ∈ l := by
  unfold pick at h
  exact List.get?_mem h

theorem mem_keys_dmem {β : Type} (d : List (String × β)) (k : String)
    (h : k ∈ keysOf d) : dmem d k = true := by
  unfold dmem
  cases hl : dlookup d k with
  | none => exact absurd h ((dlookup_none_iff_keys d k).mp hl)
  | some v => rfl

theorem get_initial_contextS_none_level (m : Model) (ic? : Option String) (r : Nat)
    (hget : m.context_by_n.get? (m.n - 1) = none) :
    get_initial_contextS m ic? r = none := by
  simp only [get_initial_contextS, hget]

theorem get_initial_contextS_seed (m : Model) (ic : String) (r : Nat) (tbl : CtxTable)
    (hget : m.context_by_n.get? (m.n - 1) = some tbl) :
    get_initial_contextS m (some ic) r
      = (if ((keysOf tbl).filter (fun c => strStartsWith c ic)).length = 0 then some none
         else (pick ((keysOf tbl).filter (fun c => strStartsWith c ic)) r).map some) := by
  simp only [get_initial_contextS, hget]

theorem generateS_seed_ext (m : Model) (seed : String) (target : Nat) (g : Nat → Nat)
    (h1 : ¬((msplit m.use_chars seed).length > target))
    (h2 : (msplit m.use_chars seed).length < m.n - 1) :
    generateS m (some seed) target g
      = (match get_initial_contextS m (some seed) (g 0) with
         | none => (none, m)
         | some none => (some seed, m)
         | some (some nc) => genContinue m nc target g) := by
  simp only [generateS, if_neg h1, if_pos h2]

/-- C4 (amended): the draw is restricted by the Python STRING-prefix test
`context.startswith(seed)`, not by a token-prefix test: whenever
`get_initial_context` draws a context for a seed shorter than
`window_size - 1` tokens, the drawn context is a key of
`context_by_n[n-1]` whose string starts with the seed string (for
character granularity this coincides with a token prefix, for word
granularity it does not — see `claim_C4_counterexample`); and if no key
passes the string test, `generate` returns the original seed unchanged
without raising. -/
theorem claim_C4 (m : Model) (seed : String) (target : Nat) (g : Nat → Nat)
    (h1 : (msplit m.use_chars seed).length ≤ target)
    (h2 : (msplit m.use_chars seed).length < m.n - 1) :
    (∀ c, get_initial_contextS m (some seed) (g 0) = some (some c) →
        dmem ((m.context_by_n.get? (m.n - 1)).getD []) c = true
        ∧ strStartsWith c seed = true)
    ∧ (get_initial_contextS m (some seed) (g 0) = some none →
        (generateS m (some seed) target g).1 = some seed) := by
  constructor
  · intro c hc
    cases hget : m.context_by_n.get? (m.n - 1) with
    | none =>
      rw [get_initial_contextS_none_level m (some seed) (g 0) hget] at hc
      simp at hc
    | some tbl =>
      rw [get_initial_contextS_seed m seed (g 0) tbl hget] at hc
      by_cases hemp : ((keysOf tbl).filter (fun c2 => strStartsWith c2 seed)).length = 0
      · rw [if_pos hemp] at hc
        simp at hc
      · rw [if_neg hemp] at hc
        cases hpick : pick ((keysOf tbl).filter (fun c2 => strStartsWith c2 seed)) (g 0) with
        | none =>
          rw [hpick] at hc
          simp at hc
        | some c2 =>
          rw [hpick] at hc
          simp at hc
          subst hc
          have hmem := pick_mem _ _ _ hpick
          rw [List.mem_filter] at hmem
          exact ⟨mem_keys_dmem tbl c2 hmem.1, hmem.2⟩
  · intro hc
    rw [generateS_seed_ext m seed target g (by omega) h2, hc]

/-- C4 witness: trained word model (`n = 3`, corpus `"a b c"`), seed
`"a"`, target length 1: the only level-2 key is `"a b"`, the draw returns
it, and it both belongs to `context_by_n[2]` and starts with the seed. -/
theorem claim_C4_witness :
    ((msplit (buildModel (initModel 3 false) "a b c").use_chars "a").length ≤ 1)
    ∧ ((msplit (buildModel (initModel 3 false) "a b c").use_chars "a").length
        < (buildModel (initModel 3 false) "a b c").n - 1)
    ∧ ((∀ c, get_initial_contextS (buildModel (initModel 3 false) "a b c") (some "a")
          ((fun _ => 0) 0) = some (some c) →
        dmem (((buildModel (initModel 3 false) "a b c").context_by_n.get?
          ((buildModel (initModel 3 false) "a b c").n - 1)).getD []) c = true
        ∧ strStartsWith c "a" = true)
      ∧ (get_initial_contextS (buildModel (initModel 3 false) "a b c") (some "a")
          ((fun _ => 0) 0) = some none →
        (generateS (buildModel (initModel 3 false) "a b c") (some "a") 1 (fun _ => 0)).1
          = some "a")) :=
  ⟨by decide, by decide,
   claim_C4 (buildModel (initModel 3 false) "a b c") "a" 1 (fun _ => 0)
     (by decide) (by decide)⟩

/-- C4 counterexample: train word mode `n = 3` on `"ab c d"`; the only
level-2 key is `"ab c"`.  For the seed `"a"` the string test
`"ab c".startswith("a")` passes, so the draw returns `"ab c"` — but the
seed's token sequence `["a"]` is NOT a prefix of the key's token sequence
`["ab", "c"]`, refuting the claim's token-prefix restriction. -/
theorem claim_C4_counterexample :
    get_initial_contextS (buildModel (initModel 3 false) "ab c d") (some "a") 0
      = some (some "ab c")
    ∧ (msplit false "a").isPrefixOf (msplit false "ab c") = false := by
  refine ⟨?_, by decide⟩
  rw [get_initial_contextS_seed (buildModel (initModel 3 false) "ab c d") "a" 0
    [("ab c", [("d", 1)])] (by decide)]
  rw [show ((keysOf [("ab c", [("d", 1)])]).filter (fun c => strStartsWith c "a"))
      = ["ab c"] from by decide]
  rw [if_neg (by decide)]
  rfl

/-- C3 (code bug): the claim and the method's own docstring ("If the
length of the specified context exceeds (or equal to) the specified n,
the method should return the a prefix of length n of the specified
context") require `generate(seed, target)` with `len(split(seed)) ≥
target` to return the first `target` tokens of the seed with no random
draw.  But line 153 tests `context_len > n` STRICTLY, so a seed of
exactly `target` tokens that is also shorter than `n - 1` tokens falls
into the context-extension path: it invokes `random.choices`, and the
string-prefix match can land on a context whose first token differs from
the seed.  Concretely (word mode, `n = 3`, corpus `"ab c d"`):
`generate("a", 1)` returns `"ab"` — for every possible draw — instead of
`"a"`. -/
theorem claim_C3 :
    (∀ g : Nat → Nat,
      (generateS (buildModel (initModel 3 false) "ab c d") (some "a") 1 g).1 = some "ab")
    ∧ mjoin false ((msplit false "a").take 1) = "a" := by
  refine ⟨?_, by decide⟩
  intro g
  have hinit : ∀ r, get_initial_contextS (buildModel (initModel 3 false) "ab c d")
      (some "a") r = some (some "ab c") := by
    intro r
    rw [get_initial_contextS_seed (buildModel (initModel 3 false) "ab c d") "a" r
      [("ab c", [("d", 1)])] (by decide)]
    rw [show ((keysOf [("ab c", [("d", 1)])]).filter (fun c => strStartsWith c "a"))
        = ["ab c"] from by decide]
    rw [if_neg (by decide)]
    simp [pick, Nat.mod_one]
  rw [generateS_seed_ext (buildModel (initModel 3 false) "ab c d") "a" 1 g
    (by decide) (by decide), hinit (g 0)]
  show (genContinue (buildModel (initModel 3 false) "ab c d") "ab c" 1 g).1 = some "ab"
  simp only [genContinue]
  rw [if_pos (by decide)]
  decide

/-! ### Claim C5: totality of evaluation -/

theorem ctxOf_length (chars : Bool) (n : Nat) (S : List String) :
    (ctxOf chars n S).length = n := by
  unfold ctxOf
  rw [length_foldl_applyTriple, List.length_replicate]

theorem trained_ctx_get_some (n : Nat) (chars : Bool) (corpus : String) (k : Nat)
    (hk : k < n) :
    ∃ tbl, (buildModel (initModel n chars) corpus).context_by_n.get? k = some tbl := by
  rw [trained_context_by_n, List.get?_eq_getElem?]
  exact ⟨_, List.getElem?_eq_getElem (by rw [ctxOf_length]; exact hk)⟩

theorem dmem_exists {β : Type} (d : List (String × β)) (k : String)
    (h : dmem d k = true) : ∃ v, dlookup d k = some v := by
  unfold dmem at h
  cases h2 : dlookup d k with
  | none => rw [h2] at h; simp at h
  | some v => exact ⟨v, rfl⟩

/-- `smooth` never raises on a model with `V ≥ 1` when the context's
level exists: both denominators are positive. -/
theorem smoothS_isSome (m : Model) (context : String) (hV : 1 ≤ m.V)
    (hlev : ∃ tbl, m.context_by_n.get? ((msplit m.use_chars context).length) = some tbl) :
    ((smoothS m context).1).isSome = true := by
  obtain ⟨tbl, hget⟩ := hlev
  simp only [smoothS, hget]
  by_cases hmem : dmem tbl context
  · obtain ⟨inner, hinner⟩ := dmem_exists tbl context hmem
    rw [ddGet_of_some m _ context tbl inner hget hinner]
    simp only [if_pos hmem]
    rw [if_neg (by omega)]
    rfl
  · simp only [if_neg hmem]
    rw [if_neg (by omega)]
    rfl

/-- `get_prob` never raises when the context and its continuation token
are both present and the context's total count is positive. -/
theorem get_probS_isSome (m : Model) (context last_gram : String)
    (tbl : CtxTable) (inner : Inner)
    (hget : m.context_by_n.get? ((msplit m.use_chars context).length) = some tbl)
    (hlook : dlookup tbl context = some inner)
    (hlast : dmem inner last_gram = true)
    (hsum : sumVals inner ≠ 0) :
    ((get_probS m context last_gram).1).isSome = true := by
  obtain ⟨c_ngram, hc⟩ := dmem_exists inner last_gram hlast
  simp only [get_probS, ddGet_of_some m _ context tbl inner hget hlook, hc]
  rw [if_neg hsum]
  rfl

/-- On a trained model with `V ≥ 1`, every position of the `evaluate`
loop produces a probability: the context of the trailing window has at
most `n - 1` tokens, so its level exists; a present `(context, token)`
pair takes the `get_prob` path with a positive total (every stored total
is ≥ 1); every other case takes the `smooth` path, whose denominator is
at least `V ≥ 1`. -/
theorem evalPos_isSome (n : Nat) (chars : Bool) (corpus text : String) (hn : 1 ≤ n)
    (hV : 1 ≤ (buildModel (initModel n chars) corpus).V)
    (i : Nat) (hi : i < (msplit chars text).length) :
    ((evalPos (buildModel (initModel n chars) corpus) (msplit chars text) i).1).isSome
      = true := by
  have hwne : (((msplit chars text).take (i + 1)).drop (i + 1 - n)) ≠ [] :=
    window_ne_nil (msplit chars text) i n hn hi
  have hwtok : ∀ t ∈ ((msplit chars text).take (i + 1)).drop (i + 1 - n), tokOK chars t :=
    fun t ht => mem_msplit_tokOK chars text t (window_mem (msplit chars text) i n t ht)
  have hsplit := split_context_gram_mjoin chars
    (((msplit chars text).take (i + 1)).drop (i + 1 - n)) hwne hwtok
  have hc1 : (split_context_gram chars
      (mjoin chars (((msplit chars text).take (i + 1)).drop (i + 1 - n)))).1
      = mjoin chars ((((msplit chars text).take (i + 1)).drop (i + 1 - n)).dropLast) := by
    rw [hsplit]
  have hc2 : (split_context_gram chars
      (mjoin chars (((msplit chars text).take (i + 1)).drop (i + 1 - n)))).2
      = (((((msplit chars text).take (i + 1)).drop (i + 1 - n)).getLast?).getD "") := by
    rw [hsplit]
  have hdroptok : ∀ t ∈ ((((msplit chars text).take (i + 1)).drop (i + 1 - n)).dropLast),
      tokOK chars t := fun t ht => hwtok t (List.mem_of_mem_dropLast ht)
  have hlev : (msplit chars (mjoin chars
      ((((msplit chars text).take (i + 1)).drop (i + 1 - n)).dropLast))).length < n := by
    have h1 := msplit_mjoin_le chars _ hdroptok
    have h2 : ((((msplit chars text).take (i + 1)).drop (i + 1 - n)).dropLast).length
        = min n (i + 1) - 1 := by
      rw [List.length_dropLast, window_length (msplit chars text) i n hi]
    omega
  obtain ⟨tbl, hget⟩ := trained_ctx_get_some n chars corpus _ hlev
  simp only [evalPos, trained_use_chars, trained_n, get_ngram_by_last_index, hc1, hc2, hget]
  by_cases hmem : dmem tbl
      (mjoin chars ((((msplit chars text).take (i + 1)).drop (i + 1 - n)).dropLast))
  · obtain ⟨inner, hinner⟩ := dmem_exists _ _ hmem
    rw [ddGet_of_some _ _ _ tbl inner hget hinner]
    simp only [if_pos hmem]
    by_cases hlast : dmem inner
        ((((((msplit chars text).take (i + 1)).drop (i + 1 - n)).getLast?).getD ""))
    · simp only [if_pos hlast]
      have hlook2 : dlookup (((ctxOf chars n (msplit chars corpus)).get?
          ((msplit chars (mjoin chars
            ((((msplit chars text).take (i + 1)).drop (i + 1 - n)).dropLast))).length)).getD [])
          (mjoin chars ((((msplit chars text).take (i + 1)).drop (i + 1 - n)).dropLast))
          = some inner := by
        rw [← trained_context_by_n, hget]
        exact hinner
      have hsum : sumVals inner ≠ 0 := by
        have := ctx_inner_sum_pos chars n (msplit chars corpus) _ _ inner hlev
          (mem_msplit_tokOK chars corpus) hlook2
        omega
      exact get_probS_isSome _ _ _ tbl inner hget hinner hlast hsum
    · simp only [if_neg hlast]
      exact smoothS_isSome _ _ hV ⟨tbl, hget⟩
  · simp only [if_neg hmem]
    exact smoothS_isSome _ _ hV ⟨tbl, hget⟩

/-- The `evaluate` loop succeeds when every position does. -/
theorem evalLoop_isSome (m : Model) (S : List String) (l : List Nat)
    (h : ∀ i ∈ l, ((evalPos m S i).1).isSome = true) :
    ((evalLoop m S l).1).isSome = true := by
  induction l with
  | nil => rfl
  | cons i rest ih =>
    obtain ⟨q, hq⟩ := Option.isSome_iff_exists.mp (h i (List.mem_cons_self i rest))
    have hp : evalPos m S i = (some q, m) := by
      cases hps : evalPos m S i with
      | mk o m1 =>
        have h2 := evalPos_snd m S i
        rw [hps] at h2 hq
        have ho : o = some q := hq
        have hm : m1 = m := h2
        rw [ho, hm]
    obtain ⟨qs, hqs⟩ := Option.isSome_iff_exists.mp
      (ih (fun j hj => h j (List.mem_cons_of_mem i hj)))
    simp only [evalLoop, hp]
    cases hrest : evalLoop m S rest with
    | mk o2 m2 =>
      rw [hrest] at hqs
      have ho2 : o2 = some qs := hqs
      subst ho2
      rfl

/-- `evaluate` succeeds on every text when the trained model has
`V ≥ 1`. -/
theorem evalTermsS_isSome (n : Nat) (chars : Bool) (corpus text : String) (hn : 1 ≤ n)
    (hV : 1 ≤ (buildModel (initModel n chars) corpus).V) :
    ((evalTermsS (buildModel (initModel n chars) corpus) text).1).isSome = true := by
  simp only [evalTermsS, trained_use_chars]
  apply evalLoop_isSome
  intro i hi
  rw [mem_descRange _ _ _ (by omega)] at hi
  exact evalPos_isSome n chars corpus text hn hV i hi.2

/-! ### Claim C1: refinement of `evaluate` against the spec's sum -/

theorem evaluateS_fst (m : Model) (text : String) :
    (evaluateS m text).1
      = ((evalTermsS m text).1).map (fun qs => (qs.map (fun (q : ℚ) => Real.log (q : ℝ))).sum) := rfl

theorem msplit_empty (chars : Bool) : msplit chars "" = [] := by
  cases chars with
  | false => rw [msplit_false_eq, if_pos rfl]
  | true => rfl

theorem not_dmem_lookup {β : Type} (d : List (String × β)) (k : String)
    (h : ¬ dmem d k = true) : dlookup d k = none := by
  unfold dmem at h
  cases h2 : dlookup d k with
  | none => rfl
  | some v => rw [h2] at h; simp at h

theorem range_map_rev (N : Nat) :
    (List.range N).map (fun j => N - 1 - j) = (List.range N).reverse := by
  have h0 := List.reverse_range' 0 N
  rw [← List.range_eq_range'] at h0
  rw [h0]
  apply List.map_congr_left
  intro a ha
  omega

theorem descRange_one (len : Nat) : descRange len 1 = (List.range len).reverse := by
  unfold descRange
  rw [show len + 1 - 1 = len from by omega]
  exact range_map_rev len

theorem seqOpt_append {α : Type} (a b : List (Option α)) :
    seqOpt (a ++ b) = (seqOpt a).bind (fun xs => (seqOpt b).map (fun ys => xs ++ ys)) := by
  induction a with
  | nil => cases h : seqOpt b <;> simp [seqOpt, h]
  | cons o rest ih =>
    cases o with
    | none => simp [seqOpt]
    | some x =>
      simp only [List.cons_append, seqOpt, ih]
      cases h1 : seqOpt rest <;> cases h2 : seqOpt b <;> simp [ih, h1, h2]

theorem seqOpt_reverse {α : Type} (os : List (Option α)) :
    seqOpt os.reverse = (seqOpt os).map List.reverse := by
  induction os with
  | nil => rfl
  | cons o rest ih =>
    rw [List.reverse_cons, seqOpt_append, ih]
    cases o <;> cases h : seqOpt rest <;> simp [seqOpt, h]

/-- The spec's guarded sum of logarithms is the logarithm-sum of the
sequenced probability list. -/
theorem optSumR_map_seqOpt (g : ℚ → ℝ) (os : List (Option ℚ)) :
    optSumR (os.map (fun o => o.map g)) = (seqOpt os).map (fun qs => (qs.map g).sum) := by
  induction os with
  | nil => rfl
  | cons o rest ih =>
    cases o with
    | none => simp [optSumR, seqOpt]
    | some q =>
      simp only [List.map_cons, optSumR, seqOpt, ih]
      cases h : seqOpt rest <;> simp [h]

/-- The value of the `evaluate` loop is the sequenced list of the
per-position values (the state threading is invisible because no
position mutates the model). -/
theorem evalLoop_cons_fst (m : Model) (S : List String) (i : Nat) (rest : List Nat) :
    (evalLoop m S (i :: rest)).1
      = ((evalPos m S i).1).bind
          (fun q => ((evalLoop m S rest).1).map (fun qs => q :: qs)) := by
  have hsnd := evalPos_snd m S i
  simp only [evalLoop]
  generalize hps : evalPos m S i = p
  rw [hps] at hsnd
  cases p with
  | mk o m1 =>
    have hm : m1 = m := hsnd
    subst hm
    cases o with
    | none => rfl
    | some q =>
      show (match evalLoop m1 S rest with
        | (none, m2) => ((none : Option (List ℚ)), m2)
        | (some qs, m2) => (some (q :: qs), m2)).1
        = ((evalLoop m1 S rest).1).map (fun qs => q :: qs)
      cases hrest : evalLoop m1 S rest with
      | mk o2 m2 => cases o2 <;> rfl

theorem evalLoop_fst (m : Model) (S : List String) (l : List Nat) :
    (evalLoop m S l).1 = seqOpt (l.map (fun i => (evalPos m S i).1)) := by
  induction l with
  | nil => rfl
  | cons i rest ih =>
    rw [evalLoop_cons_fst, ih]
    rfl

/-- Pointwise agreement of the evaluation loop body with the spec's
per-position log term, on a trained model: both take the
maximum-likelihood branch exactly when the `(context, token)` pair is
stored at the context's level, the context-smoothing branch when only
the context is stored, and the unseen-context branch otherwise, with
identical probabilities and identical zero-denominator failures. -/
theorem evalPos_spec (n : Nat) (chars : Bool) (corpus text : String) (hn : 1 ≤ n)
    (i : Nat) (hi : i < (msplit chars text).length) :
    ((evalPos (buildModel (initModel n chars) corpus) (msplit chars text) i).1).map
        (fun (q : ℚ) => Real.log (q : ℝ))
      = specLogTerm (buildModel (initModel n chars) corpus) (msplit chars text) i := by
  have hwne : (((msplit chars text).take (i + 1)).drop (i + 1 - n)) ≠ [] :=
    window_ne_nil (msplit chars text) i n hn hi
  have hwtok : ∀ t ∈ ((msplit chars text).take (i + 1)).drop (i + 1 - n), tokOK chars t :=
    fun t ht => mem_msplit_tokOK chars text t (window_mem (msplit chars text) i n t ht)
  have hsplit := split_context_gram_mjoin chars
    (((msplit chars text).take (i + 1)).drop (i + 1 - n)) hwne hwtok
  have hc1 : (split_context_gram chars
      (mjoin chars (((msplit chars text).take (i + 1)).drop (i + 1 - n)))).1
      = mjoin chars ((((msplit chars text).take (i + 1)).drop (i + 1 - n)).dropLast) := by
    rw [hsplit]
  have hc2 : (split_context_gram chars
      (mjoin chars (((msplit chars text).take (i + 1)).drop (i + 1 - n)))).2
      = (((((msplit chars text).take (i + 1)).drop (i + 1 - n)).getLast?).getD "") := by
    rw [hsplit]
  have hdroptok : ∀ t ∈ ((((msplit chars text).take (i + 1)).drop (i + 1 - n)).dropLast),
      tokOK chars t := fun t ht => hwtok t (List.mem_of_mem_dropLast ht)
  have hlev : (msplit chars (mjoin chars
      ((((msplit chars text).take (i + 1)).drop (i + 1 - n)).dropLast))).length < n := by
    have h1 := msplit_mjoin_le chars _ hdroptok
    have h2 : ((((msplit chars text).take (i + 1)).drop (i + 1 - n)).dropLast).length
        = min n (i + 1) - 1 := by
      rw [List.length_dropLast, window_length (msplit chars text) i n hi]
    omega
  obtain ⟨tbl, hget⟩ := trained_ctx_get_some n chars corpus _ hlev
  simp only [evalPos, specLogTerm, trained_use_chars, trained_n, get_ngram_by_last_index,
    hc1, hc2, hget, Option.getD_some]
  by_cases hmem : dmem tbl
      (mjoin chars ((((msplit chars text).take (i + 1)).drop (i + 1 - n)).dropLast))
  · obtain ⟨inner, hinner⟩ := dmem_exists _ _ hmem
    rw [ddGet_of_some _ _ _ tbl inner hget hinner]
    simp only [if_pos hmem, hinner]
    by_cases hlast : dmem inner
        ((((((msplit chars text).take (i + 1)).drop (i + 1 - n)).getLast?).getD ""))
    · obtain ⟨cnt, hcnt⟩ := dmem_exists _ _ hlast
      simp only [if_pos hlast, hcnt]
      simp only [get_probS, trained_use_chars,
        ddGet_of_some _ _ _ tbl inner hget hinner, hcnt]
      by_cases hz : sumVals inner = 0 <;> simp [hz]
    · have hnone := not_dmem_lookup inner
        ((((((msplit chars text).take (i + 1)).drop (i + 1 - n)).getLast?).getD "")) hlast
      simp only [if_neg hlast, hnone]
      simp only [smoothS, trained_use_chars, hget, if_pos hmem,
        ddGet_of_some _ _ _ tbl inner hget hinner]
      by_cases hz : sumVals inner + (buildModel (initModel n chars) corpus).V = 0 <;>
        simp [hz]
  · have hnone := not_dmem_lookup tbl
      (mjoin chars ((((msplit chars text).take (i + 1)).drop (i + 1 - n)).dropLast)) hmem
    simp only [if_neg hmem, hnone]
    simp only [smoothS, trained_use_chars, hget, if_neg hmem]
    by_cases hz : (buildModel (initModel n chars) corpus).V = 0 <;> simp [hz]

/-- C1: on every trained model (`n ≥ 1`), `evaluate(text)` equals the
spec's sum over all token positions of the per-position log terms
computed from the trailing window of at most `n` tokens ending at each
position (the code iterates the positions in descending order and the
spec in ascending order; the sum is the same, and a zero-denominator
failure occurs on one side exactly when it occurs on the other).  In
particular `evaluate("")` is the empty sum, exactly `0`. -/
theorem claim_C1 (n : Nat) (chars : Bool) (corpus text : String) (hn : 1 ≤ n) :
    (evaluateS (buildModel (initModel n chars) corpus) text).1
      = specEvaluate (buildModel (initModel n chars) corpus) text
    ∧ (evaluateS (buildModel (initModel n chars) corpus) "").1 = some 0 := by
  constructor
  · rw [evaluateS_fst]
    simp only [evalTermsS, specEvaluate, trained_use_chars]
    rw [evalLoop_fst, descRange_one, List.map_reverse, seqOpt_reverse, Option.map_map]
    have hpt : (List.range (msplit chars text).length).map
        (specLogTerm (buildModel (initModel n chars) corpus) (msplit chars text))
        = ((List.range (msplit chars text).length).map
            (fun i => (evalPos (buildModel (initModel n chars) corpus)
              (msplit chars text) i).1)).map
            (fun o => o.map (fun (q : ℚ) => Real.log (q : ℝ))) := by
      rw [List.map_map]
      apply List.map_congr_left
      intro i hi
      rw [List.mem_range] at hi
      exact (evalPos_spec n chars corpus text hn i hi).symm
    rw [hpt, optSumR_map_seqOpt]
    cases hsq : seqOpt ((List.range (msplit chars text).length).map
        (fun i => (evalPos (buildModel (initModel n chars) corpus)
          (msplit chars text) i).1)) with
    | none => rfl
    | some qs => simp [Function.comp, List.sum_reverse]
  · rw [evaluateS_fst]
    simp only [evalTermsS, trained_use_chars, msplit_empty]
    rfl

/-- C1 witness: word mode, `n = 2`, corpus `"a b a"`, evaluated on
`"a b"`. -/
theorem claim_C1_witness :
    ((1 : Nat) ≤ 2)
    ∧ ((evaluateS (buildModel (initModel 2 false) "a b a") "a b").1
         = specEvaluate (buildModel (initModel 2 false) "a b a") "a b"
       ∧ (evaluateS (buildModel (initModel 2 false) "a b a") "").1 = some 0) :=
  ⟨by decide, claim_C1 2 false "a b a" "a b" (by decide)⟩

/-! ### Claim C5: exact characterization of evaluation failure -/

/-- `smooth` on a context that is PRESENT at its level never raises,
whatever `V` is: the denominator is `c_context + V ≥ c_context ≥ 1`. -/
theorem smoothS_seen_isSome (m : Model) (context : String) (tbl : CtxTable) (inner : Inner)
    (hget : m.context_by_n.get? ((msplit m.use_chars context).length) = some tbl)
    (hinner : dlookup tbl context = some inner) (hsum : 1 ≤ sumVals inner) :
    ((smoothS m context).1).isSome = true := by
  have hmem : dmem tbl context = true := by
    unfold dmem
    rw [hinner]
    rfl
  simp only [smoothS, hget, if_pos hmem, ddGet_of_some m _ context tbl inner hget hinner]
  rw [if_neg (by omega)]
  rfl

/-- One position of the `evaluate` loop on a trained model fails if and
only if the model has `V = 0` AND the position's backoff context is
absent from its level: a present `(context, token)` pair divides by a
stored total `≥ 1`, and a present context with an absent token smooths
with denominator `total + V ≥ 1`, so only the unseen-context smoothing
branch (denominator `0 + V`) can raise. -/
theorem evalPos_none_iff (n : Nat) (chars : Bool) (corpus text : String) (hn : 1 ≤ n)
    (i : Nat) (hi : i < (msplit chars text).length) :
    ((evalPos (buildModel (initModel n chars) corpus) (msplit chars text) i).1 = none
      ↔ ((buildModel (initModel n chars) corpus).V = 0
         ∧ dmem (((buildModel (initModel n chars) corpus).context_by_n.get?
              ((msplit chars (posContext chars n (msplit chars text) i)).length)).getD [])
            (posContext chars n (msplit chars text) i) = false)) := by
  have hwne : (((msplit chars text).take (i + 1)).drop (i + 1 - n)) ≠ [] :=
    window_ne_nil (msplit chars text) i n hn hi
  have hwtok : ∀ t ∈ ((msplit chars text).take (i + 1)).drop (i + 1 - n), tokOK chars t :=
    fun t ht => mem_msplit_tokOK chars text t (window_mem (msplit chars text) i n t ht)
  have hsplit := split_context_gram_mjoin chars
    (((msplit chars text).take (i + 1)).drop (i + 1 - n)) hwne hwtok
  have hc1 : (split_context_gram chars
      (mjoin chars (((msplit chars text).take (i + 1)).drop (i + 1 - n)))).1
      = mjoin chars ((((msplit chars text).take (i + 1)).drop (i + 1 - n)).dropLast) := by
    rw [hsplit]
  have hc2 : (split_context_gram chars
      (mjoin chars (((msplit chars text).take (i + 1)).drop (i + 1 - n)))).2
      = (((((msplit chars text).take (i + 1)).drop (i + 1 - n)).getLast?).getD "") := by
    rw [hsplit]
  have hdroptok : ∀ t ∈ ((((msplit chars text).take (i + 1)).drop (i + 1 - n)).dropLast),
      tokOK chars t := fun t ht => hwtok t (List.mem_of_mem_dropLast ht)
  have hlev : (msplit chars (mjoin chars
      ((((msplit chars text).take (i + 1)).drop (i + 1 - n)).dropLast))).length < n := by
    have h1 := msplit_mjoin_le chars _ hdroptok
    have h2 : ((((msplit chars text).take (i + 1)).drop (i + 1 - n)).dropLast).length
        = min n (i + 1) - 1 := by
      rw [List.length_dropLast, window_length (msplit chars text) i n hi]
    omega
  obtain ⟨tbl, hget⟩ := trained_ctx_get_some n chars corpus _ hlev
  have hgetD : (((buildModel (initModel n chars) corpus).context_by_n.get?
      ((msplit chars (mjoin chars ((((msplit chars text).take (i + 1)).drop
        (i + 1 - n)).dropLast))).length)).getD []) = tbl := by
    rw [hget]
    rfl
  simp only [posContext, hgetD]
  simp only [evalPos, trained_use_chars, trained_n, get_ngram_by_last_index, hc1, hc2, hget]
  by_cases hmem : dmem tbl
      (mjoin chars ((((msplit chars text).take (i + 1)).drop (i + 1 - n)).dropLast))
  · obtain ⟨inner, hinner⟩ := dmem_exists _ _ hmem
    have hlook2 : dlookup (((ctxOf chars n (msplit chars corpus)).get?
        ((msplit chars (mjoin chars
          ((((msplit chars text).take (i + 1)).drop (i + 1 - n)).dropLast))).length)).getD [])
        (mjoin chars ((((msplit chars text).take (i + 1)).drop (i + 1 - n)).dropLast))
        = some inner := by
      rw [← trained_context_by_n, hget]
      exact hinner
    have hsum : 1 ≤ sumVals inner := ctx_inner_sum_pos chars n (msplit chars corpus) _ _ inner
      hlev (mem_msplit_tokOK chars corpus) hlook2
    have hrhs : ¬ ((buildModel (initModel n chars) corpus).V = 0
        ∧ dmem tbl (mjoin chars ((((msplit chars text).take (i + 1)).drop
            (i + 1 - n)).dropLast)) = false) := by
      rintro ⟨-, hf⟩
      rw [hmem] at hf
      simp at hf
    rw [ddGet_of_some _ _ _ tbl inner hget hinner]
    simp only [if_pos hmem]
    by_cases hlast : dmem inner
        ((((((msplit chars text).take (i + 1)).drop (i + 1 - n)).getLast?).getD ""))
    · simp only [if_pos hlast]
      have hlhs := get_probS_isSome _ _ _ tbl inner hget hinner hlast (by omega)
      constructor
      · intro hnone
        rw [hnone] at hlhs
        simp at hlhs
      · intro hr
        exact absurd hr hrhs
    · simp only [if_neg hlast]
      have hlhs := smoothS_seen_isSome _ _ tbl inner hget hinner hsum
      constructor
      · intro hnone
        rw [hnone] at hlhs
        simp at hlhs
      · intro hr
        exact absurd hr hrhs
  · have hmemf : dmem tbl (mjoin chars ((((msplit chars text).take (i + 1)).drop
        (i + 1 - n)).dropLast)) = false := by
      simpa using hmem
    simp only [if_neg hmem]
    simp only [smoothS, trained_use_chars, hget, if_neg hmem]
    rw [hmemf]
    by_cases hz : (buildModel (initModel n chars) corpus).V = 0 <;> simp [hz]

/-- Sequencing fails exactly when some element is `none`. -/
theorem seqOpt_eq_none_iff {α : Type} (os : List (Option α)) :
    seqOpt os = none ↔ none ∈ os := by
  induction os with
  | nil => simp [seqOpt]
  | cons o rest ih =>
    cases o with
    | none => simp [seqOpt]
    | some x =>
      rw [show seqOpt (some x :: rest) = (seqOpt rest).map (fun xs => x :: xs) from rfl]
      cases h : seqOpt rest <;> simp [List.mem_cons, ← ih, h]

/-- `evaluate` raises exactly when some position of the loop raises. -/
theorem evalTermsS_none_iff (n : Nat) (chars : Bool) (corpus text : String) :
    ((evalTermsS (buildModel (initModel n chars) corpus) text).1 = none)
      ↔ ∃ i, i < (msplit chars text).length
          ∧ (evalPos (buildModel (initModel n chars) corpus) (msplit chars text) i).1
              = none := by
  simp only [evalTermsS, trained_use_chars]
  rw [evalLoop_fst, descRange_one, seqOpt_eq_none_iff, List.mem_map]
  constructor
  · rintro ⟨i, hil, hnone⟩
    rw [List.mem_reverse, List.mem_range] at hil
    exact ⟨i, hil, hnone⟩
  · rintro ⟨i, hil, hnone⟩
    refine ⟨i, ?_, hnone⟩
    rw [List.mem_reverse, List.mem_range]
    exact hil

/-- C5 (amended): on every trained model (`n ≥ 1`, both granularities):
(i) if `V ≥ 1` then `evaluate(text)` terminates without raising for
every input text — the result is a finite sum of logarithms of positive
rationals, never an exception, an infinity or a NaN; (ii) if `V = 0`
then `evaluate(text)` raises (`ZeroDivisionError`, modeled as `none`)
if and only if some position's backoff context is absent from its
level: a SEEN context — even one whose continuation token is unseen —
smooths with denominator `count_of_context + V ≥ 1` and never raises,
so a non-empty text can still evaluate successfully (see the
counterexample). -/
theorem claim_C5 (n : Nat) (chars : Bool) (corpus : String) (hn : 1 ≤ n) (text : String) :
    (1 ≤ (buildModel (initModel n chars) corpus).V →
      (evaluateS (buildModel (initModel n chars) corpus) text).1 ≠ none)
    ∧ ((buildModel (initModel n chars) corpus).V = 0 →
        ((evaluateS (buildModel (initModel n chars) corpus) text).1 = none
          ↔ ∃ i, i < (msplit chars text).length
              ∧ dmem (((buildModel (initModel n chars) corpus).context_by_n.get?
                   ((msplit chars (posContext chars n (msplit chars text) i)).length)).getD [])
                  (posContext chars n (msplit chars text) i) = false)) := by
  have hmap : ∀ (o : Option (List ℚ)),
      (o.map (fun qs => (qs.map (fun (q : ℚ) => Real.log (q : ℝ))).sum) = none ↔ o = none) := by
    intro o
    cases o <;> simp
  constructor
  · intro hV
    obtain ⟨qs, hqs⟩ := Option.isSome_iff_exists.mp
      (evalTermsS_isSome n chars corpus text hn hV)
    rw [evaluateS_fst, hqs]
    simp
  · intro hV0
    rw [evaluateS_fst, hmap, evalTermsS_none_iff n chars corpus text]
    constructor
    · rintro ⟨i, hil, hnone⟩
      exact ⟨i, hil, ((evalPos_none_iff n chars corpus text hn i hil).mp hnone).2⟩
    · rintro ⟨i, hil, hdm⟩
      exact ⟨i, hil, (evalPos_none_iff n chars corpus text hn i hil).mpr ⟨hV0, hdm⟩⟩

/-- C5 witness: word mode, `n = 3`, corpus `"a b"` (a model with
`V = 0`), evaluated on `"x y"` (whose position-0 context is unseen, so
the `V = 0` biconditional is live). -/
theorem claim_C5_witness :
    ((1 : Nat) ≤ 3)
    ∧ ((1 ≤ (buildModel (initModel 3 false) "a b").V →
          (evaluateS (buildModel (initModel 3 false) "a b") "x y").1 ≠ none)
       ∧ ((buildModel (initModel 3 false) "a b").V = 0 →
          ((evaluateS (buildModel (initModel 3 false) "a b") "x y").1 = none
            ↔ ∃ i, i < (msplit false "x y").length
                ∧ dmem (((buildModel (initModel 3 false) "a b").context_by_n.get?
                     ((msplit false (posContext false 3 (msplit false "x y") i)).length)).getD
                     [])
                    (posContext false 3 (msplit false "x y") i) = false))) :=
  ⟨by decide, claim_C5 3 false "a b" (by decide) "x y"⟩

/-- C5 counterexample to the unamended claim: the model trained on
`"a b"` with `n = 3` (word mode) has `V = 0`, yet `evaluate("a a")` — a
non-empty text — does NOT raise, even though position 1 takes the
smoothing path: its context `"a"` is stored at level 1 while its
continuation token `"a"` is not stored under it, so `smooth` divides by
`count_of_context + V = 1 + 0 = 1`. -/
theorem claim_C5_counterexample :
    (buildModel (initModel 3 false) "a b").V = 0
    ∧ "a a" ≠ ""
    ∧ dmem (((buildModel (initModel 3 false) "a b").context_by_n.get? 1).getD []) "a" = true
    ∧ dmem ((dlookup (((buildModel (initModel 3 false) "a b").context_by_n.get? 1).getD [])
        "a").getD []) "a" = false
    ∧ (evaluateS (buildModel (initModel 3 false) "a b") "a a").1 ≠ none := by
  refine ⟨by decide, by decide, by decide, by decide, ?_⟩
  have h : ((evalTermsS (buildModel (initModel 3 false) "a b") "a a").1).isSome = true := by
    decide
  obtain ⟨qs, hqs⟩ := Option.isSome_iff_exists.mp h
  rw [evaluateS_fst, hqs]
  simp

end Ex1
